import Mathlib

/-!
Verification of the receipt-extraction core of the Pizza-Damico bookkeeping
frontend.  The TypeScript sources `src/lib/parse.ts`, `src/lib/ocr.ts` and the
category suggester of `src/pages/ExpensePage.tsx` are shallowly embedded here:
strings are `List Char`, JavaScript numbers are modelled as exact rationals
(all operations under verification are parse/compare only, no float
arithmetic whose rounding could be observed), fallible operations return
`Option`, and exceptions become `Except`.
-/

/-! ## Kernel-computable rational arithmetic

The field operations of `ℚ` in this Mathlib snapshot do not reduce inside
`decide`, so the embedding computes with `mkRat`-based helpers and bridges
them to `+`, `*`, `-`, `/` through the lemmas below. -/

def qAdd (a b : ℚ) : ℚ := mkRat (a.num * b.den + b.num * a.den) (a.den * b.den)

def qMul (a b : ℚ) : ℚ := mkRat (a.num * b.num) (a.den * b.den)

def qDivNat (a : ℚ) (n : Nat) : ℚ := mkRat a.num (a.den * n)

def qNeg (a : ℚ) : ℚ := mkRat (-a.num) a.den

theorem den_cast_ne (a : ℚ) : ((a.den : ℚ)) ≠ 0 := by
  exact_mod_cast a.den_pos.ne'

theorem qAdd_eq (a b : ℚ) : qAdd a b = a + b := by
  unfold qAdd
  rw [Rat.mkRat_eq_div]
  push_cast
  conv_rhs => rw [← Rat.num_div_den a, ← Rat.num_div_den b]
  rw [div_add_div _ _ (den_cast_ne a) (den_cast_ne b)]
  congr 1
  ring

theorem qMul_eq (a b : ℚ) : qMul a b = a * b := by
  unfold qMul
  rw [Rat.mkRat_eq_div]
  push_cast
  conv_rhs => rw [← Rat.num_div_den a, ← Rat.num_div_den b]
  rw [div_mul_div_comm]

theorem qNeg_eq (a : ℚ) : qNeg a = -a := by
  unfold qNeg
  rw [Rat.mkRat_eq_div]
  push_cast
  conv_rhs => rw [← Rat.num_div_den a]
  rw [neg_div]

theorem qDivNat_eq (a : ℚ) (n : Nat) : qDivNat a n = a / n := by
  unfold qDivNat
  rw [Rat.mkRat_eq_div]
  push_cast
  conv_rhs => rw [← Rat.num_div_den a]
  rw [div_div]

/-! ## Character-level model of the JavaScript primitives -/

/-- The whitespace characters recognised by `String.prototype.trim` and the
regex class `\s`, restricted to the repertoire that can occur in this
application's OCR text. -/
def jsWs (c : Char) : Bool :=
  c = ' ' ∨ c = '\t' ∨ c = '\n' ∨ c = '\r' ∨ c = Char.ofNat 11 ∨
    c = Char.ofNat 12 ∨ c = Char.ofNat 160

/-- `String.prototype.trim`: drop whitespace from both ends. -/
def jsTrim (cs : List Char) : List Char :=
  ((cs.dropWhile jsWs).reverse.dropWhile jsWs).reverse

/-- Numeric value of a decimal digit list, `Number("053") = 53` style. -/
def digitsVal (ds : List Char) : Nat :=
  ds.foldl (fun a c => 10 * a + (c.toNat - 48)) 0

/-- `cs.takeWhile`/`dropWhile` split at the first non-digit. -/
def spanDigits (cs : List Char) : List Char × List Char :=
  (cs.takeWhile Char.isDigit, cs.dropWhile Char.isDigit)

/-- Characters that can occur in a JavaScript decimal number literal. -/
def numChar (c : Char) : Bool :=
  c.isDigit ∨ c = '.' ∨ c = 'e' ∨ c = 'E' ∨ c = '+' ∨ c = '-'

/-- Exponent digits of a number literal: the whole rest must be digits. -/
def expDigits (cs : List Char) : Option ℤ :=
  let (ds, r) := spanDigits cs
  if ds = [] ∨ r ≠ [] then none else some (digitsVal ds : ℤ)

/-- Signed exponent part after `e`/`E`. -/
def expVal (cs : List Char) : Option ℤ :=
  match cs with
  | [] => expDigits []
  | c :: r =>
    if c = '+' then expDigits r
    else if c = '-' then (expDigits r).map Neg.neg
    else expDigits (c :: r)

/-- The exact value `integer-part.fraction-part`, as a rational. -/
def mantVal (ip fp : List Char) : ℚ :=
  mkRat (Int.ofNat (digitsVal ip * 10 ^ fp.length + digitsVal fp)) (10 ^ fp.length)

/-- Mantissa (integer part, optional fraction) and the unconsumed rest. -/
def mantissaRest (cs : List Char) : Option (ℚ × List Char) :=
  let (ip, r1) := spanDigits cs
  match r1 with
  | c :: t =>
    if c = '.' then
      let (fp, r2) := spanDigits t
      if ip = [] ∧ fp = [] then none
      else some (mantVal ip fp, r2)
    else if ip = [] then none else some (mantVal ip [], c :: t)
  | [] => if ip = [] then none else some (mantVal ip [], [])

/-- Scaling by a (possibly negative) power of ten. -/
def applyExp (m : ℚ) (z : ℤ) : ℚ :=
  if 0 ≤ z then qMul m (mkRat (Int.ofNat (10 ^ z.toNat)) 1)
  else qDivNat m (10 ^ (-z).toNat)

/-- Unsigned body of a number literal: mantissa plus optional exponent. -/
def numBody (cs : List Char) : Option ℚ :=
  match mantissaRest cs with
  | none => none
  | some (m, rest) =>
    match rest with
    | [] => some m
    | c :: t =>
      if c = 'e' ∨ c = 'E' then (expVal t).map fun z => applyExp m z
      else none

/-- Signed body of a number literal. -/
def numSigned (cs : List Char) : Option ℚ :=
  match cs with
  | [] => numBody []
  | c :: r =>
    if c = '+' then numBody r
    else if c = '-' then (numBody r).map qNeg
    else numBody (c :: r)

/-- Model of JavaScript `Number(s)` for an already-stripped string, mapping
non-finite results to `none`.  The model covers the decimal-literal fragment
(sign, digits, fraction, exponent); strings outside that fragment — which
never contain a comma and never contain two dots, as the leading guard makes
explicit — are mapped to no-value, as are `Infinity` and the hexadecimal
forms (neither occurs in this application: the callers feed it monetary and
percentage tokens).  `Number("")` is `0` in JavaScript, but the source guards
the empty string before every call, so the model's `none` on `[]` is
unobservable through the embedded functions. -/
def jsNumber (cs : List Char) : Option ℚ :=
  if cs.all numChar ∧ cs.count '.' ≤ 1 then numSigned cs else none

/-! ## `src/lib/parse.ts` -/

/-- The runtime values `parseDecimalInput` can receive: `null`, `undefined`,
finite numbers, the non-finite numbers, strings, and anything else. -/
inductive JsValue where
  | vNull : JsValue
  | vUndef : JsValue
  | vNum : ℚ → JsValue
  | vNaN : JsValue
  | vInf : Bool → JsValue
  | vStr : List Char → JsValue
  | vOther : JsValue

/-- Characters removed by `replace(/[\s'’]/g, "")`. -/
def stripChar (c : Char) : Bool :=
  jsWs c ∨ c = '\'' ∨ c = Char.ofNat 0x2019

/-- `String.prototype.replace(",", ".")`: only the first comma is replaced. -/
def replaceFirstComma : List Char → List Char
  | [] => []
  | c :: r => if c = ',' then '.' :: r else c :: replaceFirstComma r

/-- Replacing every comma by a dot (the reading "ANY `,` is converted"). -/
def replaceAllCommas (cs : List Char) : List Char :=
  cs.map fun c => if c = ',' then '.' else c

/-- `replace(/\./g, "")`. -/
def removeDots (cs : List Char) : List Char :=
  cs.filter fun c => ¬ (c = '.')

/-- `parseDecimalInput` from `src/lib/parse.ts`: null/undefined give no
value, numbers pass through when finite, strings are trimmed, stripped of
whitespace/apostrophes, have their separators normalised (both `,` and `.`
present: drop dots, first comma becomes the decimal point; otherwise the
first comma becomes a dot — `replace` with a string pattern replaces one
occurrence) and are parsed with `Number`. -/
def parseDecimalInput (value : JsValue) : Option ℚ :=
  match value with
  | .vNull => none
  | .vUndef => none
  | .vNum q => some q
  | .vNaN => none
  | .vInf _ => none
  | .vOther => none
  | .vStr s =>
    let t := jsTrim s
    if t = [] then none
    else
      let stripped := t.filter fun c => ¬ stripChar c
      let normalized :=
        if (',' ∈ stripped) ∧ ('.' ∈ stripped) then
          replaceFirstComma (removeDots stripped)
        else
          replaceFirstComma stripped
      if normalized = [] then none else jsNumber normalized

/-- The spec's reference parsing algorithm, written from its words: same as
the source except that in the no-dot branch ANY comma is converted to a dot,
and there is no second emptiness check before the float parse. -/
def specParseDecimalInput (value : JsValue) : Option ℚ :=
  match value with
  | .vNull => none
  | .vUndef => none
  | .vNum q => some q
  | .vNaN => none
  | .vInf _ => none
  | .vOther => none
  | .vStr s =>
    let t := jsTrim s
    if t = [] then none
    else
      let stripped := t.filter fun c => ¬ stripChar c
      let normalized :=
        if (',' ∈ stripped) ∧ ('.' ∈ stripped) then
          replaceFirstComma (removeDots stripped)
        else
          replaceAllCommas stripped
      jsNumber normalized

/-! ### `parseDecimalInput` agrees with the spec's reference algorithm -/

theorem jsNumber_nil : jsNumber [] = none := by decide

theorem jsNumber_of_comma_mem {cs : List Char} (h : ',' ∈ cs) :
    jsNumber cs = none := by
  unfold jsNumber
  rw [if_neg]
  rintro ⟨hall, -⟩
  have := List.all_eq_true.mp hall ',' h
  simp [numChar] at this

theorem jsNumber_of_two_dots {cs : List Char} (h : 2 ≤ cs.count '.') :
    jsNumber cs = none := by
  unfold jsNumber
  rw [if_neg]
  rintro ⟨-, hle⟩
  omega

theorem replaceFirstComma_of_not_mem {cs : List Char} (h : ',' ∉ cs) :
    replaceFirstComma cs = cs := by
  induction cs with
  | nil => rfl
  | cons c r ih =>
    simp only [List.mem_cons, not_or] at h
    simp [replaceFirstComma, Ne.symm h.1, ih h.2]

theorem replaceAllCommas_of_not_mem {cs : List Char} (h : ',' ∉ cs) :
    replaceAllCommas cs = cs := by
  induction cs with
  | nil => rfl
  | cons c r ih =>
    simp only [List.mem_cons, not_or] at h
    simp only [replaceAllCommas, List.map_cons] at *
    rw [if_neg (Ne.symm h.1), ih h.2]

theorem replaceFirstComma_length (cs : List Char) :
    (replaceFirstComma cs).length = cs.length := by
  induction cs with
  | nil => rfl
  | cons c r ih =>
    by_cases hc : c = ','
    · simp [replaceFirstComma, hc]
    · simp [replaceFirstComma, hc, ih]

theorem replaceAllCommas_cons (c : Char) (r : List Char) :
    replaceAllCommas (c :: r) = (if c = ',' then '.' else c) :: replaceAllCommas r :=
  rfl

theorem replaceFirst_eq_replaceAll_of_count_le_one {cs : List Char}
    (h : cs.count ',' ≤ 1) : replaceFirstComma cs = replaceAllCommas cs := by
  induction cs with
  | nil => rfl
  | cons c r ih =>
    by_cases hc : c = ','
    · subst hc
      rw [List.count_cons_self] at h
      have hr : ',' ∉ r := by
        rw [← List.count_eq_zero]
        omega
      rw [replaceAllCommas_cons, if_pos rfl, replaceAllCommas_of_not_mem hr]
      simp [replaceFirstComma]
    · rw [List.count_cons_of_ne (by simpa using Ne.symm hc)] at h
      rw [replaceAllCommas_cons, if_neg hc]
      simp only [replaceFirstComma, if_neg hc]
      exact congrArg _ (ih h)

theorem comma_mem_replaceFirst_of_two {cs : List Char}
    (h : 2 ≤ cs.count ',') : ',' ∈ replaceFirstComma cs := by
  induction cs with
  | nil => simp at h
  | cons c r ih =>
    by_cases hc : c = ','
    · subst hc
      rw [List.count_cons_self] at h
      have hr : ',' ∈ r := by
        rw [← List.count_pos_iff]
        omega
      simp [replaceFirstComma, hr]
    · rw [List.count_cons_of_ne (by simpa using Ne.symm hc)] at h
      simp [replaceFirstComma, hc, ih h]

theorem count_dot_replaceAll {cs : List Char} (h : '.' ∉ cs) :
    (replaceAllCommas cs).count '.' = cs.count ',' := by
  induction cs with
  | nil => rfl
  | cons c r ih =>
    simp only [List.mem_cons, not_or] at h
    by_cases hc : c = ','
    · subst hc
      rw [replaceAllCommas_cons, if_pos rfl, List.count_cons_self,
        List.count_cons_self, ih h.2]
    · rw [replaceAllCommas_cons, if_neg hc,
        List.count_cons_of_ne h.1, List.count_cons_of_ne
        (by simpa using Ne.symm hc), ih h.2]

theorem parseDecimalInput_eq_spec (v : JsValue) :
    parseDecimalInput v = specParseDecimalInput v := by
  cases v with
  | vStr s =>
    simp only [parseDecimalInput, specParseDecimalInput]
    by_cases ht : jsTrim s = []
    · simp [ht]
    · simp only [if_neg ht]
      by_cases hb : (',' ∈ (jsTrim s).filter (fun c => ¬ stripChar c)) ∧
          ('.' ∈ (jsTrim s).filter (fun c => ¬ stripChar c))
      · rw [if_pos hb, if_pos hb]
        by_cases hn : replaceFirstComma
            (removeDots ((jsTrim s).filter (fun c => ¬ stripChar c))) = []
        · rw [if_pos hn, hn, jsNumber_nil]
        · rw [if_neg hn]
      · rw [if_neg hb, if_neg hb]
        by_cases hn : replaceFirstComma ((jsTrim s).filter (fun c => ¬ stripChar c)) = []
        · have hs0 : (jsTrim s).filter (fun c => ¬ stripChar c) = [] := by
            have hl := replaceFirstComma_length ((jsTrim s).filter (fun c => ¬ stripChar c))
            rw [hn] at hl
            exact List.length_eq_zero.mp hl.symm
          rw [if_pos hn, hs0]
          simp [replaceAllCommas, jsNumber_nil]
        · rw [if_neg hn]
          rcases Nat.lt_or_ge (((jsTrim s).filter (fun c => ¬ stripChar c)).count ',') 2
            with h2 | h2
          · rw [replaceFirst_eq_replaceAll_of_count_le_one (by omega)]
          · rw [jsNumber_of_comma_mem (comma_mem_replaceFirst_of_two h2)]
            have hcm : ',' ∈ (jsTrim s).filter (fun c => ¬ stripChar c) := by
              rw [← List.count_pos_iff]
              omega
            have hdm : '.' ∉ (jsTrim s).filter (fun c => ¬ stripChar c) :=
              fun hd => hb ⟨hcm, hd⟩
            rw [jsNumber_of_two_dots (by rw [count_dot_replaceAll hdm]; omega)]
  | vNull => rfl
  | vUndef => rfl
  | vNum q => rfl
  | vNaN => rfl
  | vInf b => rfl
  | vOther => rfl

/-- C4: `parseDecimalInput` equals the spec's reference algorithm on every
input (the only textual difference, first-comma versus every-comma
replacement in the no-dot branch, is unobservable: a remaining comma and a
second dot both make the float parse fail), and it parses the documented
examples: `"1'234.50"` and `"1.234,50"` to 1234.50, `"12,5"` to 12.5,
`"8.1"` and `"  8,1 "` to 8.1, while the empty string and `null` give no
value.  Totality of the Lean function witnesses that it is pure and never
throws. -/
theorem c4_parse_decimal_matches_reference :
    (∀ v, parseDecimalInput v = specParseDecimalInput v) ∧
    parseDecimalInput (.vStr ( "1'234.50").toList) = some (2469 / 2 : ℚ) ∧
    parseDecimalInput (.vStr ( "1.234,50").toList) = some (2469 / 2 : ℚ) ∧
    parseDecimalInput (.vStr ( "12,5").toList) = some (25 / 2 : ℚ) ∧
    parseDecimalInput (.vStr ( "8.1").toList) = some (81 / 10 : ℚ) ∧
    parseDecimalInput (.vStr ( "  8,1 ").toList) = some (81 / 10 : ℚ) ∧
    parseDecimalInput (.vStr ( "").toList) = none ∧
    parseDecimalInput .vNull = none := by
  refine ⟨parseDecimalInput_eq_spec, ?_, ?_, ?_, ?_, ?_, by decide, by decide⟩
  · rw [show (2469 / 2 : ℚ) = mkRat 2469 2 by rw [Rat.mkRat_eq_div]; norm_num]
    decide
  · rw [show (2469 / 2 : ℚ) = mkRat 2469 2 by rw [Rat.mkRat_eq_div]; norm_num]
    decide
  · rw [show (25 / 2 : ℚ) = mkRat 25 2 by rw [Rat.mkRat_eq_div]; norm_num]
    decide
  · rw [show (81 / 10 : ℚ) = mkRat 81 10 by rw [Rat.mkRat_eq_div]; norm_num]
    decide
  · rw [show (81 / 10 : ℚ) = mkRat 81 10 by rw [Rat.mkRat_eq_div]; norm_num]
    decide

/-! ## `runReceiptOcr` — the OCR dispatcher (`src/lib/ocr.ts`) -/

/-- The caller-supplied recognition mode. -/
inductive OcrMode where
  | auto : OcrMode
  | offline : OcrMode
  | online : OcrMode
deriving DecidableEq

/-- Which engine actually produced the text. -/
inductive OcrMethod where
  | offline : OcrMethod
  | online : OcrMethod
deriving DecidableEq

/-- `{ text, method }` as returned by `runReceiptOcr`. -/
structure OcrResult where
  text : List Char
  method : OcrMethod
deriving DecidableEq

/-- Truthiness of `options.apiKey` (`string | null | undefined`): missing,
null and the empty string are falsy. -/
def apiKeyTruthy : Option (List Char) → Bool
  | none => false
  | some [] => false
  | some (_ :: _) => true

/-- The dispatcher's decision: remote is wanted when the mode is forced
online, or when it is auto, a credential is configured and the browser
reports connectivity. -/
def wantsOnline (mode : OcrMode) (apiKey : Option (List Char))
    (navigatorOnLine : Bool) : Bool :=
  mode = OcrMode.online ∨ (mode = OcrMode.auto ∧ apiKeyTruthy apiKey ∧ navigatorOnLine)

/-- `runReceiptOcr`: the two recognition paths are external effects, so the
embedding takes their outcomes as `Except` parameters; the function is the
dispatcher's control flow.  When remote is wanted its success is returned
tagged `online`; a remote error is rethrown in forced-online mode and
swallowed in auto mode, after which (as when remote was never wanted) the
offline path's outcome is returned tagged `offline`. -/
def runReceiptOcr (mode : OcrMode) (apiKey : Option (List Char))
    (navigatorOnLine : Bool) (remote offline : Except (List Char) (List Char)) :
    Except (List Char) OcrResult :=
  let offlineRun : Except (List Char) OcrResult :=
    match offline with
    | .ok t => .ok ⟨t, OcrMethod.offline⟩
    | .error e => .error e
  if wantsOnline mode apiKey navigatorOnLine then
    match remote with
    | .ok t => .ok ⟨t, OcrMethod.online⟩
    | .error e => if mode = OcrMode.online then .error e else offlineRun
  else offlineRun

/-- C3: the dispatcher attempts remote exactly under the documented
condition — when the condition fails the result is the offline outcome and
is independent of the remote outcome (remote is never attempted); a remote
success is returned tagged `online`; a remote failure propagates in forced
online mode, independently of the offline outcome (offline is never run);
and in auto mode a remote failure falls back transparently to the offline
outcome. -/
theorem c3_dispatcher_decision_and_fallback (mode : OcrMode)
    (apiKey : Option (List Char)) (onLine : Bool)
    (remote remote2 offline : Except (List Char) (List Char)) :
    (wantsOnline mode apiKey onLine =
      (mode = OcrMode.online ∨ (mode = OcrMode.auto ∧ apiKeyTruthy apiKey ∧ onLine) :
        Prop)) ∧
    (wantsOnline mode apiKey onLine = false →
      runReceiptOcr mode apiKey onLine remote offline =
        runReceiptOcr mode apiKey onLine remote2 offline ∧
      runReceiptOcr mode apiKey onLine remote offline =
        (match offline with
         | .ok t => .ok ⟨t, OcrMethod.offline⟩
         | .error e => .error e)) ∧
    (∀ t, wantsOnline mode apiKey onLine = true → remote = .ok t →
      runReceiptOcr mode apiKey onLine remote offline = .ok ⟨t, OcrMethod.online⟩) ∧
    (∀ e offline2, mode = OcrMode.online → remote = .error e →
      runReceiptOcr mode apiKey onLine remote offline = .error e ∧
      runReceiptOcr mode apiKey onLine remote offline =
        runReceiptOcr mode apiKey onLine remote offline2) ∧
    (∀ e, mode = OcrMode.auto → remote = .error e →
      runReceiptOcr mode apiKey onLine remote offline =
        (match offline with
         | .ok t => .ok ⟨t, OcrMethod.offline⟩
         | .error e => .error e)) := by
  refine ⟨?_, ?_, ?_, ?_, ?_⟩
  · simp [wantsOnline]
  · intro hw
    constructor <;> simp [runReceiptOcr, hw]
  · intro t hw hr
    simp [runReceiptOcr, hw, hr]
  · intro e offline2 hm hr
    subst hm
    constructor <;> simp [runReceiptOcr, hr, wantsOnline]
  · intro e hm hr
    subst hm
    by_cases hw : wantsOnline OcrMode.auto apiKey onLine <;>
      simp [runReceiptOcr, hw, hr]

/-- Witness for C3: forced-online mode with a failing remote propagates the
error regardless of the offline outcome, and auto mode without a key goes
offline. -/
theorem c3_dispatcher_witness :
    runReceiptOcr OcrMode.online none true (.error ( "boom").toList)
        (.ok ( "text").toList) = .error ( "boom").toList ∧
    runReceiptOcr OcrMode.auto none true (.error ( "boom").toList)
        (.ok ( "text").toList) = .ok ⟨( "text").toList, OcrMethod.offline⟩ := by
  constructor
  · exact ((c3_dispatcher_decision_and_fallback OcrMode.online none true
      (.error ( "boom").toList) (.error ( "boom").toList)
      (.ok ( "text").toList)).2.2.2.1 ( "boom").toList (.ok ( "text").toList)
      rfl rfl).1
  · exact ((c3_dispatcher_decision_and_fallback OcrMode.auto none true
      (.error ( "boom").toList) (.error ( "boom").toList)
      (.ok ( "text").toList)).2.1 (by decide)).2

/-! ## Text normalisation and line classification (`src/lib/ocr.ts`) -/

/-- Model of Unicode-aware `toLowerCase` over the repertoire this
application sees: ASCII letters and the Latin-1 letters (covering ä/ö/ü
etc.); other characters map to themselves. -/
def charLower (c : Char) : Char :=
  if 'A' ≤ c ∧ c ≤ 'Z' then Char.ofNat (c.toNat + 32)
  else if 192 ≤ c.toNat ∧ c.toNat ≤ 222 ∧ ¬ (c.toNat = 215) then
    Char.ofNat (c.toNat + 32)
  else c

/-- `s.toLowerCase()`. -/
def lowerL (cs : List Char) : List Char :=
  cs.map charLower

/-- Model of the regex class `\p{L}` over ASCII plus Latin-1 letters (the
letters producible by the configured German/Italian/English recognition). -/
def jsLetter (c : Char) : Bool :=
  ('a' ≤ c ∧ c ≤ 'z') ∨ ('A' ≤ c ∧ c ≤ 'Z') ∨
    (192 ≤ c.toNat ∧ c.toNat ≤ 255 ∧ ¬ (c.toNat = 215) ∧ ¬ (c.toNat = 247))

/-- `as` is a prefix of `bs`. -/
def startsWithL : List Char → List Char → Bool
  | [], _ => true
  | _ :: _, [] => false
  | a :: as, b :: bs => a = b && startsWithL as bs

/-- `hay.includes(needle)`: substring containment. -/
def containsSub (needle : List Char) : List Char → Bool
  | [] => needle.isEmpty
  | c :: rest => startsWithL needle (c :: rest) || containsSub needle rest

/-- One pass of `replace(/[|]+/g, " ")`: each run of bars becomes a single
space (the flag records whether the previous character was a bar). -/
def collapseBarsGo : Bool → List Char → List Char
  | _, [] => []
  | prevBar, c :: r =>
    if c = '|' then
      if prevBar then collapseBarsGo true r else ' ' :: collapseBarsGo true r
    else c :: collapseBarsGo false r

/-- `replace(/\s+/g, " ")`: each whitespace run becomes a single space. -/
def collapseWsGo : Bool → List Char → List Char
  | _, [] => []
  | prevWs, c :: r =>
    if jsWs c then
      if prevWs then collapseWsGo true r else ' ' :: collapseWsGo true r
    else c :: collapseWsGo false r

/-- The class `[.,;:]`. -/
def punctChar (c : Char) : Bool :=
  c = '.' ∨ c = ',' ∨ c = ';' ∨ c = ':'

/-- `replace(/[.,;:]+$/, "")`: drop the trailing punctuation run. -/
def stripTrailingPunct (cs : List Char) : List Char :=
  (cs.reverse.dropWhile punctChar).reverse

/-- `normalizeOcrLine`: bars to spaces, whitespace runs collapsed, trailing
punctuation stripped, then trimmed. -/
def normalizeOcrLine (cs : List Char) : List Char :=
  jsTrim (stripTrailingPunct (collapseWsGo false (collapseBarsGo false cs)))

/-- The fixed multilingual totals/tax keyword table of `isNoiseLine`. -/
def noiseKeywords : List (List Char) :=
  [( "total").toList, ( "summe").toList, ( "gesamt").toList, ( "betrag").toList,
   ( "zu zahlen").toList, ( "da pagare").toList, ( "importo").toList,
   ( "mwst").toList, ( "ust").toList, ( "vat").toList, ( "iva").toList]

/-- `isNoiseLine`: the lower-cased line contains one of the keywords. -/
def isNoiseLine (line : List Char) : Bool :=
  noiseKeywords.any fun keyword => containsSub keyword (lowerL line)

/-- `isTextLine`: at least one letter and length above three. -/
def isTextLine (line : List Char) : Bool :=
  line.any jsLetter && line.length > 3

/-- `looksLikeItemLine`: a text line that is not noise, has at least two
letters, is not digit-dominated, and has no contact pattern. -/
def looksLikeItemLine (line : List Char) : Bool :=
  if ¬ isTextLine line ∨ isNoiseLine line then false
  else
    let letters := line.filter jsLetter
    if letters.length < 2 then false
    else
      let digits := line.filter Char.isDigit
      if digits.length > letters.length * 2 then false
      else if [( "tel").toList, ( "fax").toList, ( "www").toList,
          ( "http").toList, ( "@").toList].any
          (fun k => containsSub k (lowerL line)) then false
      else true

/-! ## The monetary-amount pattern

`AMOUNT_PATTERN` is
`(\d{1,3}(?:[\s'.]\d{3})*(?:[.,]\d{2})|\d+[.,]\d{2})`.  The embedding
enumerates every way the pattern can match at a position, in the regex
engine's preference order (first alternative first, greedy quantifiers
longest-first), so that surrounding patterns can backtrack through it. -/

/-- Take exactly `n` leading digits. -/
def takeExactDigits (n : Nat) (cs : List Char) : Option (List Char × List Char) :=
  let pre := cs.take n
  if pre.length = n ∧ pre.all Char.isDigit then some (pre, cs.drop n) else none

/-- The thousand-separator class `[\s'.]`. -/
def thousandSep (c : Char) : Bool :=
  jsWs c ∨ c = '\'' ∨ c = '.'

/-- All ways to extend `acc` by `(?:[\s'.]\d{3})*` groups, greediest first;
the unconsumed rest is paired with each. -/
def groupChains (acc : List Char) : List Char → List (List Char × List Char)
  | s :: a :: b :: c :: rest =>
    (if thousandSep s ∧ a.isDigit ∧ b.isDigit ∧ c.isDigit then
      groupChains (acc ++ [s, a, b, c]) rest
    else []) ++ [(acc, s :: a :: b :: c :: rest)]
  | cs => [(acc, cs)]

/-- The mandatory `(?:[.,]\d{2})` tail of the first alternative. -/
def finalCents (acc : List Char) (cs : List Char) : Option (List Char × List Char) :=
  match cs with
  | p :: d1 :: d2 :: rest =>
    if (p = '.' ∨ p = ',') ∧ d1.isDigit ∧ d2.isDigit then
      some (acc ++ [p, d1, d2], rest)
    else none
  | _ => none

/-- All matches of the first alternative at this position, preference
order: `\d{1,3}` longest first, then group count greediest first. -/
def alt1Parses (cs : List Char) : List (List Char × List Char) :=
  ([3, 2, 1].filterMap fun n => takeExactDigits n cs).flatMap fun (ds, r) =>
    (groupChains ds r).filterMap fun (acc, r2) => finalCents acc r2

/-- The second alternative `\d+[.,]\d{2}`: only the maximal digit run can
be followed by `[.,]`, so it has at most one parse. -/
def alt2At (cs : List Char) : Option (List Char × List Char) :=
  let (ds, r) := spanDigits cs
  if ds = [] then none else finalCents ds r

/-- Every match of the amount pattern at this position, preference order. -/
def amountParses (cs : List Char) : List (List Char × List Char) :=
  alt1Parses cs ++ (alt2At cs).toList

/-- The regex engine's match at this position: the preferred parse. -/
def amountAt (cs : List Char) : Option (List Char × List Char) :=
  (amountParses cs).head?

/-- All global (`/g`) matches: scan left to right, resume after each
match.  The fuel argument bounds the scan by the string length; every
match consumes at least one character, so the fuel never runs out. -/
def allAmountsGo : Nat → List Char → List (List Char)
  | 0, _ => []
  | _ + 1, [] => []
  | fuel + 1, c :: rest =>
    match amountAt (c :: rest) with
    | some (m, after) => m :: allAmountsGo fuel after
    | none => allAmountsGo fuel rest

/-- `line.match(AMOUNT_PATTERN g-flagged)`, as the list of match strings. -/
def allAmounts (cs : List Char) : List (List Char) :=
  allAmountsGo cs.length cs

/-- `AMOUNT_PATTERN.test(line)`. -/
def hasAmountPattern (cs : List Char) : Bool :=
  ¬ (allAmounts cs).isEmpty

/-! ## Price-only and trailing-price patterns -/

/-- ASCII letter, the class `[a-z]` under the `i` flag. -/
def asciiLetter (c : Char) : Bool :=
  ('a' ≤ c ∧ c ≤ 'z') ∨ ('A' ≤ c ∧ c ≤ 'Z')

/-- The optional case-insensitive currency token `(?:chf|fr|eur)?`: every
way to proceed, alternation order first, then the skipped option. -/
def currencyParses (cs : List Char) : List (List Char) :=
  (if startsWithL ( "chf").toList (lowerL cs) then [cs.drop 3] else []) ++
    (if startsWithL ( "fr").toList (lowerL cs) then [cs.drop 2] else []) ++
    (if startsWithL ( "eur").toList (lowerL cs) then [cs.drop 3] else []) ++ [cs]

/-- The optional letter `[a-z]?` (case-insensitive), greedy first. -/
def letterOpt : List Char → List (List Char)
  | [] => [[]]
  | c :: r => if asciiLetter c then [r, c :: r] else [c :: r]

/-- The optional punctuation `[.,;:]?`, greedy first. -/
def punctOpt : List Char → List (List Char)
  | [] => [[]]
  | c :: r => if punctChar c then [r, c :: r] else [c :: r]

/-- The optional dash `[-–]?`, greedy first. -/
def dashOpt : List Char → List (List Char)
  | [] => [[]]
  | c :: r =>
    if c = '-' ∨ c = Char.ofNat 8211 then [r, c :: r] else [c :: r]

/-- The end-anchored chain
`\s*(?:chf|fr|eur)?\s*AMOUNT\s*(?:chf|fr|eur)?\s*[a-z]?\s*[.,;:]?\s*$`
shared by `PRICE_ONLY_PATTERN` and `TRAILING_PRICE_PATTERN`.  Each `\s*`
is deterministic (no later element can consume whitespace); the optional
parts and the amount backtrack through their enumerated parses. -/
def priceChainFrom (cs : List Char) : Bool :=
  (currencyParses (cs.dropWhile jsWs)).any fun r2 =>
    (amountParses (r2.dropWhile jsWs)).any fun p =>
      (currencyParses (p.2.dropWhile jsWs)).any fun r6 =>
        (letterOpt (r6.dropWhile jsWs)).any fun r8 =>
          (punctOpt (r8.dropWhile jsWs)).any fun r9 =>
            (r9.dropWhile jsWs).isEmpty

/-- `PRICE_ONLY_PATTERN.test(line)` (the pattern is `^`-anchored). -/
def isPriceOnlyLine (line : List Char) : Bool :=
  priceChainFrom line

/-- `TRAILING_PRICE_PATTERN` matching at this position (the pattern is
`$`-anchored, so a match always reaches the end of the line). -/
def trailingAt (cs : List Char) : Bool :=
  (dashOpt cs).any priceChainFrom

/-- Leftmost-match search for the trailing-price pattern: the kept prefix
before the first matching start position, if any position matches. -/
def stripSearch : List Char → Option (List Char)
  | [] => none
  | c :: rest =>
    if trailingAt (c :: rest) then some []
    else (stripSearch rest).map (c :: ·)

/-- `stripTrailingPrice`: replace the first trailing-price match with the
empty string (the match always extends to the end), then trim. -/
def stripTrailingPrice (line : List Char) : List Char :=
  jsTrim ((stripSearch line).getD line)

/-! ## `extractItems` -/

/-- The primary item loop: skip noise and price-only lines; a price-bearing
line contributes its price-stripped remainder when that is at least three
characters and still item-like; an item-like line immediately followed by a
non-empty price-only line contributes itself and consumes the price line;
the loop stops as soon as six items are collected.  The fuel argument is
initialised to the number of lines and cannot run out: every iteration
consumes at least one line. -/
def extractPrimaryGo : Nat → List (List Char) → List (List Char) → List (List Char)
  | _, [], acc => acc.reverse
  | 0, _ :: _, acc => acc.reverse
  | fuel + 1, l :: rest, acc =>
    let line := normalizeOcrLine l
    if isNoiseLine line ∨ isPriceOnlyLine line then extractPrimaryGo fuel rest acc
    else if hasAmountPattern line then
      let cleaned := stripTrailingPrice line
      if 3 ≤ cleaned.length ∧ looksLikeItemLine cleaned then
        if 6 ≤ acc.length + 1 then (cleaned :: acc).reverse
        else extractPrimaryGo fuel rest (cleaned :: acc)
      else extractPrimaryGo fuel rest acc
    else if ¬ looksLikeItemLine line then extractPrimaryGo fuel rest acc
    else
      match rest with
      | [] => acc.reverse
      | n :: rest2 =>
        let next := if n = [] then [] else normalizeOcrLine n
        if next ≠ [] ∧ isPriceOnlyLine next then
          if 6 ≤ acc.length + 1 then (l :: acc).reverse
          else extractPrimaryGo fuel rest2 (l :: acc)
        else extractPrimaryGo fuel rest acc

/-- The fallback loop: collect raw item-candidate lines, stopping at four. -/
def extractFallbackGo : List (List Char) → List (List Char) → List (List Char)
  | [], acc => acc.reverse
  | l :: rest, acc =>
    if isPriceOnlyLine l ∨ ¬ looksLikeItemLine l then extractFallbackGo rest acc
    else if 4 ≤ acc.length + 1 then (l :: acc).reverse
    else extractFallbackGo rest (l :: acc)

/-- `extractItems`: primary rules first, fallback collection when they
produce nothing. -/
def extractItems (lines : List (List Char)) : List (List Char) :=
  let items := extractPrimaryGo lines.length lines []
  if items = [] then extractFallbackGo lines [] else items

/-! ## `findDate` -/

/-- The separator class (dot, dash, slash) of the date patterns. -/
def dateSep (c : Char) : Bool :=
  c = '.' ∨ c = '-' ∨ c = '/'

/-- Greedy bounded digit groups with backtracking: try each length in
order, passing the digits and the rest to the continuation, falling back
to the next length when the continuation fails. -/
def tryLens {α : Type} (lens : List Nat) (cs : List Char)
    (k : List Char → List Char → Option α) : Option α :=
  match lens with
  | [] => none
  | n :: ns =>
    match takeExactDigits n cs with
    | some (pre, rest) =>
      match k pre rest with
      | some r => some r
      | none => tryLens ns cs k
    | none => tryLens ns cs k

/-- Match of day, month, year with dot, dash or slash separators at this position,
returning `(day, month, year)`. -/
def p1At (cs : List Char) : Option (Nat × Nat × Nat) :=
  tryLens [2, 1] cs fun d r1 =>
    match r1 with
    | s1 :: r2 =>
      if dateSep s1 then
        tryLens [2, 1] r2 fun m r3 =>
          match r3 with
          | s2 :: r4 =>
            if dateSep s2 then
              tryLens [4, 3, 2] r4 fun y _ =>
                some (digitsVal d, digitsVal m, digitsVal y)
            else none
          | [] => none
      else none
    | [] => none

/-- Match of year, month, day with dot, dash or slash separators at this position,
returning `(year, month, day)`. -/
def p2At (cs : List Char) : Option (Nat × Nat × Nat) :=
  tryLens [4] cs fun y r1 =>
    match r1 with
    | s1 :: r2 =>
      if dateSep s1 then
        tryLens [2, 1] r2 fun m r3 =>
          match r3 with
          | s2 :: r4 =>
            if dateSep s2 then
              tryLens [2, 1] r4 fun d _ =>
                some (digitsVal y, digitsVal m, digitsVal d)
            else none
          | [] => none
      else none
    | [] => none

/-- `line.match(pattern)` for the first date pattern: leftmost match. -/
def firstMatchP1 : List Char → Option (Nat × Nat × Nat)
  | [] => none
  | c :: rest => (p1At (c :: rest)).orElse fun _ => firstMatchP1 rest

/-- `line.match(pattern)` for the second date pattern: leftmost match. -/
def firstMatchP2 : List Char → Option (Nat × Nat × Nat)
  | [] => none
  | c :: rest => (p2At (c :: rest)).orElse fun _ => firstMatchP2 rest

/-- Two-digit year windowing: `>= 70` into the 1900s, below into 2000s. -/
def windowYear (y : Nat) : Nat :=
  if y < 100 then (if 70 ≤ y then y + 1900 else y + 2000) else y

/-- Decimal digits of a number, `String(n)`. -/
def natDigits (n : Nat) : List Char :=
  Nat.toDigits 10 n

/-- `String(n).padStart(2, "0")`. -/
def pad2 (n : Nat) : List Char :=
  let s := natDigits n
  if s.length < 2 then '0' :: s else s

/-- `toIsoDate`: zero components are rejected (`!year || !month || !day`),
everything else is formatted as `year-MM-DD`. -/
def toIsoDate (year month day : Nat) : Option (List Char) :=
  if year = 0 ∨ month = 0 ∨ day = 0 then none
  else some (natDigits year ++ '-' :: pad2 month ++ '-' :: pad2 day)

/-- `findDate`: scan lines in order; on the first line where a pattern
matches (first pattern preferred) the function returns `toIsoDate` of that
match — even when that is `null` — and only pattern-free lines are
skipped.  Pattern-one years are windowed before the zero test. -/
def findDate : List (List Char) → Option (List Char)
  | [] => none
  | l :: rest =>
    match firstMatchP1 l with
    | some (d, m, y) => toIsoDate (windowYear y) m d
    | none =>
      match firstMatchP2 l with
      | some (y, m, d) => toIsoDate y m d
      | none => findDate rest

/-! ## `findAmount` -/

/-- The total/amount keyword table of `findAmount`. -/
def amountKeywords : List (List Char) :=
  [( "total").toList, ( "summe").toList, ( "gesamt").toList, ( "betrag").toList,
   ( "totale").toList, ( "importo").toList, ( "da pagare").toList,
   ( "zu zahlen").toList]

/-- Whether a line's lower-casing contains a total/amount keyword. -/
def lineHasKeyword (line : List Char) : Bool :=
  amountKeywords.any fun keyword => containsSub keyword (lowerL line)

/-- Whether a line's lower-casing contains a currency token (the source
tests for the substrings "chf" and "fr"). -/
def lineHasChf (line : List Char) : Bool :=
  containsSub ( "chf").toList (lowerL line) ||
    containsSub ( "fr").toList (lowerL line)

/-- The `(value, score)` candidates contributed by one line: each parsed
positive amount token (the source skips `!parsed || parsed <= 0`, i.e.
parse failures, zero — which is falsy — and negatives), scored by value
plus 1000 for a keyword line plus 500 for a currency line. -/
def lineCands (line : List Char) : List (ℚ × ℚ) :=
  (allAmounts line).filterMap fun raw =>
    match parseDecimalInput (.vStr raw) with
    | none => none
    | some v =>
      if v ≤ 0 then none
      else
        let s1 := if lineHasKeyword line then qAdd v 1000 else v
        let s2 := if lineHasChf line then qAdd s1 500 else s1
        some (v, s2)

/-- All candidates over all lines, in encounter order. -/
def collectCands (lines : List (List Char)) : List (ℚ × ℚ) :=
  lines.flatMap lineCands

/-- Stable insertion into a score-descending list: the new element goes
before the first strictly smaller score, after equal ones it precedes
(it comes from earlier in the original order). -/
def insertCand (c : ℚ × ℚ) : List (ℚ × ℚ) → List (ℚ × ℚ)
  | [] => [c]
  | d :: ds => if d.2 ≤ c.2 then c :: d :: ds else d :: insertCand c ds

/-- Stable sort by score descending, the ECMAScript `sort` contract for the
comparator `(a, b) => b.score - a.score`. -/
def sortCands : List (ℚ × ℚ) → List (ℚ × ℚ)
  | [] => []
  | c :: cs => insertCand c (sortCands cs)

/-- `findAmount`: no candidates gives `null`; otherwise the value of the
first candidate after the stable score-descending sort. -/
def findAmount (lines : List (List Char)) : Option ℚ :=
  let candidates := collectCands lines
  if candidates = [] then none
  else
    match sortCands candidates with
    | [] => none
    | c :: _ => some c.1

/-! ## `findMwstRate` -/

/-- The VAT keyword pattern (mwst, ust, vat, iva — case-insensitive). -/
def taxKeywordIn (line : List Char) : Bool :=
  [( "mwst").toList, ( "ust").toList, ( "vat").toList, ( "iva").toList].any
    fun keyword => containsSub keyword (lowerL line)

/-- Whether the rest of the line continues with optional whitespace and a
percent sign (the percent pattern's trailing part). -/
def percentEnd (cs : List Char) : Bool :=
  match cs.dropWhile jsWs with
  | '%' :: _ => true
  | _ => false

/-- Finish a percent match after the mandatory digits: try the optional
decimal group (dot or comma plus one digit) greedily, then the tail. -/
def percentTail (ds : List Char) (cs : List Char) : Option (List Char) :=
  (match cs with
   | s :: d :: rest =>
     if (s = '.' ∨ s = ',') ∧ d.isDigit then
       if percentEnd rest then some (ds ++ [s, d]) else none
     else none
   | _ => none).orElse
    fun _ => if percentEnd cs then some ds else none

/-- One-or-two digit percent token match at this position, greedy longest
first: the captured group of the percent pattern. -/
def percentAt : List Char → Option (List Char)
  | [] => none
  | [c1] => if c1.isDigit then percentTail [c1] [] else none
  | c1 :: c2 :: rest2 =>
    if c1.isDigit then
      if c2.isDigit then
        (percentTail [c1, c2] rest2).orElse fun _ => percentTail [c1] (c2 :: rest2)
      else percentTail [c1] (c2 :: rest2)
    else none

/-- Leftmost match of the percent pattern in a line. -/
def firstPercent : List Char → Option (List Char)
  | [] => none
  | c :: rest => (percentAt (c :: rest)).orElse fun _ => firstPercent rest

/-- `findMwstRate`: scan lines in order; non-keyword lines, keyword lines
without a percent token and keyword lines whose token fails to parse are
skipped; the first parsed token is returned. -/
def findMwstRate : List (List Char) → Option ℚ
  | [] => none
  | l :: rest =>
    if ¬ taxKeywordIn l then findMwstRate rest
    else
      match firstPercent l with
      | none => findMwstRate rest
      | some tok =>
        match parseDecimalInput (.vStr tok) with
        | none => findMwstRate rest
        | some v => some v

/-! ## `parseReceiptText` -/

/-- The suggestion record assembled from the extractors. -/
structure OcrSuggestion where
  date : Option (List Char)
  amount : Option ℚ
  mwstRate : Option ℚ
  description : Option (List Char)
  note : Option (List Char)
deriving DecidableEq

/-- Split on line breaks as the regex `\r?\n` does: a newline separates,
consuming one immediately preceding carriage return (`cur` holds the
current segment reversed). -/
def splitNlGo (cur : List Char) : List Char → List (List Char)
  | [] => [cur.reverse]
  | c :: r =>
    if c = '\n' then
      (match cur with
       | '\r' :: cur2 => cur2.reverse
       | _ => cur.reverse) :: splitNlGo [] r
    else splitNlGo (c :: cur) r

/-- The normalised non-empty lines of the raw recognised text. -/
def prepLines (text : List Char) : List (List Char) :=
  ((splitNlGo [] text).map normalizeOcrLine).filter fun l => 0 < l.length

/-- `items.join(", ")`. -/
def joinComma (items : List (List Char)) : List Char :=
  List.intercalate ( ", ").toList items

/-- `parseReceiptText`: normalise the text into lines, pick the first
non-noise text line as description (falling back to the first item),
extract the items into the note, and run the three field extractors. -/
def parseReceiptText (text : List Char) : OcrSuggestion :=
  let lines := prepLines text
  let description := lines.find? fun line => isTextLine line && ! isNoiseLine line
  let items := extractItems lines
  let note := if 0 < items.length then some (joinComma items) else none
  { date := findDate lines
    amount := findAmount lines
    mwstRate := findMwstRate lines
    description := description.orElse fun _ => items.head?
    note := note }

/-! ## Theorems about `findDate` (claim C1) -/

/-- The date triple a single line contributes: the first pattern's leftmost
match (year windowed) if any, else the second pattern's. -/
def lineDateMatch (l : List Char) : Option (Nat × Nat × Nat) :=
  match firstMatchP1 l with
  | some (d, m, y) => some (windowYear y, m, d)
  | none =>
    match firstMatchP2 l with
    | some (y, m, d) => some (y, m, d)
    | none => none

/-- C1 counterexample: a line whose first match is the impossible triple
32.13.99 yields the value "1999-13-32" rather than no value, and a line
whose first match has zero components makes the whole extraction return no
value instead of continuing to the next line, which on its own would give
"2024-03-05". -/
theorem c1_counterexample :
    findDate [( "32.13.99").toList] = some (( "1999-13-32").toList) ∧
    findDate [( "00.00.00").toList, ( "05.03.24").toList] = none ∧
    findDate [( "05.03.24").toList] = some (( "2024-03-05").toList) := by
  refine ⟨by decide, by decide, by decide⟩

/-- C1 amended: `findDate` returns `toIsoDate` of the first line's first
date-pattern match (first pattern preferred, two-digit years windowed);
only lines with no pattern match at all are skipped, so a zero component
in a matched triple ends the whole extraction with no value, while any
match with all components non-zero — even an impossible triple — is
formatted and returned. -/
theorem c1_first_match_decides :
    (∀ lines, findDate lines =
      (lines.findSome? lineDateMatch).bind fun t => toIsoDate t.1 t.2.1 t.2.2) ∧
    (∀ y m d, toIsoDate y m d = none ↔ (y = 0 ∨ m = 0 ∨ d = 0)) := by
  constructor
  · intro lines
    induction lines with
    | nil => rfl
    | cons l rest ih =>
      simp only [findDate, List.findSome?_cons, lineDateMatch]
      cases h1 : firstMatchP1 l with
      | some t =>
        rcases t with ⟨d, m, y⟩
        simp
      | none =>
        cases h2 : firstMatchP2 l with
        | some t =>
          rcases t with ⟨y, m, d⟩
          simp
        | none => simpa using ih
  · intro y m d
    unfold toIsoDate
    constructor
    · intro h
      by_contra hc
      push_neg at hc
      rw [if_neg] at h
      · exact Option.some_ne_none _ h
      · tauto
    · intro h
      rw [if_pos h]

/-! ## Theorems about `findMwstRate` (claim C6) -/

/-- The rate a single line contributes: only keyword lines are considered,
and their leftmost percent token must parse. -/
def mwstLine (l : List Char) : Option ℚ :=
  if taxKeywordIn l then
    (firstPercent l).bind fun tok => parseDecimalInput (.vStr tok)
  else none

theorem findMwstRate_eq_findSome (lines : List (List Char)) :
    findMwstRate lines = lines.findSome? mwstLine := by
  induction lines with
  | nil => rfl
  | cons l rest ih =>
    simp only [findMwstRate, List.findSome?_cons, mwstLine]
    by_cases hk : taxKeywordIn l
    · rw [if_pos hk, if_neg (by simp [hk])]
      cases hp : firstPercent l with
      | none => simpa using ih
      | some tok =>
        simp only [Option.some_bind]
        cases hv : parseDecimalInput (.vStr tok) with
        | none => simpa using ih
        | some v => simp
    · rw [if_pos (by simp [hk]), if_neg hk]
      exact ih

/-- C6: the tax-rate extractor is the first-match scan of the per-line
rule `mwstLine`, which yields nothing on lines without a VAT keyword
(mwst/ust/vat/iva, case-insensitive); on the line "MWST 8.1%" it extracts
8.1, and the same percent token without a keyword is never extracted. -/
theorem c6_tax_rate_keyword_lines_only :
    (∀ lines, findMwstRate lines = lines.findSome? mwstLine) ∧
    (∀ l, taxKeywordIn l = false → mwstLine l = none) ∧
    findMwstRate [( "MWST 8.1%").toList] = some (81 / 10 : ℚ) ∧
    findMwstRate [( "ohne Schluessel 8.1%").toList] = none := by
  refine ⟨findMwstRate_eq_findSome, ?_, ?_, by decide⟩
  · intro l hl
    simp [mwstLine, hl]
  · rw [show (81 / 10 : ℚ) = mkRat 81 10 by rw [Rat.mkRat_eq_div]; norm_num]
    decide

/-- Witness for C6: instantiating the characterisation on a concrete
two-line list — the percent on the keyword-free first line is skipped, the
keyword line's 8.1 is extracted. -/
theorem c6_tax_rate_witness :
    findMwstRate [( "Rabatt 10%").toList, ( "MWST 8.1%").toList] =
      [( "Rabatt 10%").toList, ( "MWST 8.1%").toList].findSome? mwstLine ∧
    mwstLine (( "Rabatt 10%").toList) = none := by
  constructor
  · exact c6_tax_rate_keyword_lines_only.1 _
  · exact c6_tax_rate_keyword_lines_only.2.1 _ (by decide)

/-! ## Theorems about `findAmount` (claim C2) -/

/-- The positive parsed amounts of one line, in token order (the values of
`lineCands` before scoring). -/
def linePositiveAmounts (line : List Char) : List ℚ :=
  (allAmounts line).filterMap fun raw =>
    (parseDecimalInput (.vStr raw)).bind fun v => if v ≤ 0 then none else some v

/-- The score attached to a value on a given line. -/
def lineScore (line : List Char) (v : ℚ) : ℚ :=
  let s1 := if lineHasKeyword line then qAdd v 1000 else v
  if lineHasChf line then qAdd s1 500 else s1

theorem lineCands_eq (line : List Char) :
    lineCands line = (linePositiveAmounts line).map fun v => (v, lineScore line v) := by
  unfold lineCands linePositiveAmounts lineScore
  rw [List.map_filterMap]
  apply List.filterMap_congr
  intro raw _
  cases parseDecimalInput (.vStr raw) with
  | none => rfl
  | some v =>
    by_cases hv : v ≤ 0
    · simp [Option.bind, hv]
    · simp [Option.bind, hv]

/-- C2 counterexample: with lines "Total 5.00" and "2000.00" only the
first line has a total keyword, both amounts are positive and distinct,
yet the extractor returns 2000 — the non-keyword amount wins because its
base score 2000 exceeds the keyword line's 5 + 1000. -/
theorem c2_counterexample :
    findAmount [( "Total 5.00").toList, ( "2000.00").toList] = some 2000 ∧
    lineHasKeyword (( "Total 5.00").toList) = true ∧
    lineHasKeyword (( "2000.00").toList) = false := by
  refine ⟨?_, by decide, by decide⟩
  rw [show (2000 : ℚ) = mkRat 2000 1 by rw [Rat.mkRat_eq_div]; norm_num]
  decide

/-- C2 amended: in a two-line list where exactly one line carries a
total/tax keyword, neither line carries a currency token, and each line
contributes exactly one positive amount, the keyword line's amount wins —
in either line order — provided the other amount stays below the keyword
amount plus the 1000-point keyword bonus; beyond that bound the other
amount's base score prevails, as the counterexample shows. -/
theorem c2_keyword_line_wins_within_bonus (l1 l2 : List Char) (a b : ℚ)
    (h1 : linePositiveAmounts l1 = [a]) (h2 : linePositiveAmounts l2 = [b])
    (hk1 : lineHasKeyword l1 = true) (hk2 : lineHasKeyword l2 = false)
    (hc1 : lineHasChf l1 = false) (hc2 : lineHasChf l2 = false)
    (hlt : b < a + 1000) :
    findAmount [l1, l2] = some a ∧ findAmount [l2, l1] = some a := by
  have hs1 : lineScore l1 a = a + 1000 := by
    simp [lineScore, hk1, hc1, qAdd_eq]
  have hs2 : lineScore l2 b = b := by
    simp [lineScore, hk2, hc2]
  have hcand1 : lineCands l1 = [(a, a + 1000)] := by
    rw [lineCands_eq, h1, List.map_singleton, hs1]
  have hcand2 : lineCands l2 = [(b, b)] := by
    rw [lineCands_eq, h2, List.map_singleton, hs2]
  constructor
  · have hcol : collectCands [l1, l2] = [(a, a + 1000), (b, b)] := by
      simp [collectCands, hcand1, hcand2]
    unfold findAmount
    rw [hcol]
    rw [if_neg (by simp)]
    have hsort : sortCands [(a, a + 1000), (b, b)] = [(a, a + 1000), (b, b)] := by
      simp only [sortCands, insertCand]
      rw [if_pos (le_of_lt hlt)]
    rw [hsort]
  · have hcol : collectCands [l2, l1] = [(b, b), (a, a + 1000)] := by
      simp [collectCands, hcand1, hcand2]
    unfold findAmount
    rw [hcol]
    rw [if_neg (by simp)]
    have hsort : sortCands [(b, b), (a, a + 1000)] = [(a, a + 1000), (b, b)] := by
      simp only [sortCands, insertCand]
      rw [if_neg (not_le.mpr hlt)]
    rw [hsort]

/-- Witness for C2: on the concrete lines "Total 5.00" and "999.99" the
keyword line's 5 wins in both orders, its 1005 outscoring 999.99. -/
theorem c2_keyword_line_wins_witness :
    findAmount [( "Total 5.00").toList, ( "999.99").toList] = some 5 ∧
    findAmount [( "999.99").toList, ( "Total 5.00").toList] = some 5 :=
  c2_keyword_line_wins_within_bonus (( "Total 5.00").toList)
    (( "999.99").toList) 5 (mkRat 99999 100)
    (by rw [show (5 : ℚ) = mkRat 5 1 by rw [Rat.mkRat_eq_div]; norm_num]; decide)
    (by decide) (by decide) (by decide) (by decide) (by decide)
    (by rw [Rat.mkRat_eq_div]; norm_num)

/-! ## Digit-character facts -/

theorem isDigit_toNat {c : Char} (h : c.isDigit = true) :
    48 ≤ c.toNat ∧ c.toNat ≤ 57 := by
  simp only [Char.isDigit, Bool.and_eq_true, decide_eq_true_eq] at h
  exact h

theorem digit_not_ws {c : Char} (h : c.isDigit = true) : jsWs c = false := by
  unfold jsWs
  simp only [decide_eq_false_iff_not]
  rintro (rfl | rfl | rfl | rfl | rfl | rfl | rfl) <;> exact absurd h (by decide)

theorem digit_not_strip {c : Char} (h : c.isDigit = true) : stripChar c = false := by
  unfold stripChar
  simp only [decide_eq_false_iff_not]
  rintro (hw | rfl | rfl)
  · rw [digit_not_ws h] at hw
    exact absurd hw (by decide)
  · exact absurd h (by decide)
  · exact absurd h (by decide)

theorem digit_ne_comma {c : Char} (h : c.isDigit = true) : ¬ (c = ',') := by
  rintro rfl
  exact absurd h (by decide)

theorem digit_ne_dot {c : Char} (h : c.isDigit = true) : ¬ (c = '.') := by
  rintro rfl
  exact absurd h (by decide)

theorem digit_numChar {c : Char} (h : c.isDigit = true) : numChar c = true := by
  simp [numChar, h]

/-- The value of a digit string grows by place value. -/
theorem foldl_digits (r : List Char) (a : Nat) :
    r.foldl (fun x c => 10 * x + (c.toNat - 48)) a =
      a * 10 ^ r.length + digitsVal r := by
  induction r generalizing a with
  | nil => simp [digitsVal]
  | cons c t ih =>
    simp only [List.foldl_cons, List.length_cons, digitsVal] at *
    rw [ih (10 * a + (c.toNat - 48)), ih (10 * 0 + (c.toNat - 48))]
    ring

theorem digitsVal_lt {ds : List Char} (h : ∀ c ∈ ds, c.isDigit = true) :
    digitsVal ds < 10 ^ ds.length := by
  induction ds with
  | nil => simp [digitsVal]
  | cons c t ih =>
    have hc := isDigit_toNat (h c (by simp))
    have ht := ih fun x hx => h x (by simp [hx])
    simp only [digitsVal, List.foldl_cons, List.length_cons]
    rw [foldl_digits]
    have : c.toNat - 48 ≤ 9 := by omega
    calc (10 * 0 + (c.toNat - 48)) * 10 ^ t.length + digitsVal t
        ≤ 9 * 10 ^ t.length + digitsVal t := by
          apply Nat.add_le_add_right
          apply Nat.mul_le_mul_right
          omega
      _ < 10 ^ (t.length + 1) := by
          rw [pow_succ]
          omega

/-! ## Evaluating the parser on digit tokens -/

theorem dropWhile_eq_self_of_none {p : Char → Bool} {cs : List Char}
    (h : ∀ c ∈ cs, p c = false) : cs.dropWhile p = cs := by
  cases cs with
  | nil => rfl
  | cons c r =>
    rw [List.dropWhile_cons, if_neg]
    rw [h c (by simp)]
    simp

theorem jsTrim_eq_self {cs : List Char} (h : ∀ c ∈ cs, jsWs c = false) :
    jsTrim cs = cs := by
  unfold jsTrim
  rw [dropWhile_eq_self_of_none h]
  rw [dropWhile_eq_self_of_none fun c hc => h c (List.mem_reverse.mp hc)]
  exact List.reverse_reverse cs

theorem filter_strip_eq_self {cs : List Char} (h : ∀ c ∈ cs, stripChar c = false) :
    (cs.filter fun c => ¬ stripChar c) = cs := by
  apply List.filter_eq_self.mpr
  intro c hc
  simp [h c hc]

theorem takeWhile_eq_self_of_all {p : Char → Bool} {cs : List Char}
    (h : ∀ c ∈ cs, p c = true) : cs.takeWhile p = cs := by
  induction cs with
  | nil => rfl
  | cons c r ih =>
    rw [List.takeWhile_cons, if_pos (h c (by simp))]
    rw [ih fun x hx => h x (by simp [hx])]

theorem dropWhile_eq_nil_of_all {p : Char → Bool} {cs : List Char}
    (h : ∀ c ∈ cs, p c = true) : cs.dropWhile p = [] := by
  induction cs with
  | nil => rfl
  | cons c r ih =>
    rw [List.dropWhile_cons, if_pos (h c (by simp))]
    exact ih fun x hx => h x (by simp [hx])

theorem spanDigits_all {cs : List Char} (h : ∀ c ∈ cs, c.isDigit = true) :
    spanDigits cs = (cs, []) := by
  unfold spanDigits
  rw [takeWhile_eq_self_of_all h, dropWhile_eq_nil_of_all h]

theorem spanDigits_append_stop {ds : List Char} {x : Char} {r : List Char}
    (h : ∀ c ∈ ds, c.isDigit = true) (hx : x.isDigit = false) :
    spanDigits (ds ++ x :: r) = (ds, x :: r) := by
  unfold spanDigits
  simp only [Prod.mk.injEq]
  constructor
  · induction ds with
    | nil => simp [List.takeWhile_cons, hx]
    | cons c t ih =>
      rw [List.cons_append, List.takeWhile_cons, if_pos (h c (by simp))]
      rw [ih fun y hy => h y (by simp [hy])]
  · induction ds with
    | nil => simp [List.dropWhile_cons, hx]
    | cons c t ih =>
      rw [List.cons_append, List.dropWhile_cons, if_pos (h c (by simp))]
      exact ih fun y hy => h y (by simp [hy])
theorem digit_ne_plus {c : Char} (h : c.isDigit = true) : ¬ (c = '+') := by
  rintro rfl
  exact absurd h (by decide)

theorem digit_ne_minus {c : Char} (h : c.isDigit = true) : ¬ (c = '-') := by
  rintro rfl
  exact absurd h (by decide)

theorem mantissaRest_digits {ds : List Char} (hne : ds ≠ [])
    (h : ∀ c ∈ ds, c.isDigit = true) :
    mantissaRest ds = some (mantVal ds [], []) := by
  simp only [mantissaRest, spanDigits_all h]
  rw [if_neg hne]

theorem mantissaRest_digits_dot {ds : List Char} {d : Char} (hne : ds ≠ [])
    (h : ∀ c ∈ ds, c.isDigit = true) (hd : d.isDigit = true) :
    mantissaRest (ds ++ ['.', d]) = some (mantVal ds [d], []) := by
  have hs : spanDigits (ds ++ '.' :: [d]) = (ds, '.' :: [d]) :=
    spanDigits_append_stop h (by decide)
  simp only [mantissaRest, hs, if_true]
  rw [show spanDigits [d] = ([d], []) from spanDigits_all (by simpa using hd)]
  simp [hne]

theorem numBody_digits {ds : List Char} (hne : ds ≠ [])
    (h : ∀ c ∈ ds, c.isDigit = true) : numBody ds = some (mantVal ds []) := by
  simp [numBody, mantissaRest_digits hne h]

theorem numBody_digits_dot {ds : List Char} {d : Char} (hne : ds ≠ [])
    (h : ∀ c ∈ ds, c.isDigit = true) (hd : d.isDigit = true) :
    numBody (ds ++ ['.', d]) = some (mantVal ds [d]) := by
  simp [numBody, mantissaRest_digits_dot hne h hd]

/-- `Number` on a non-empty all-digit string is its place value. -/
theorem jsNumber_digits {ds : List Char} (hne : ds ≠ [])
    (h : ∀ c ∈ ds, c.isDigit = true) : jsNumber ds = some (mantVal ds []) := by
  unfold jsNumber
  rw [if_pos]
  · cases ds with
    | nil => exact absurd rfl hne
    | cons c r =>
      simp only [numSigned]
      rw [if_neg (digit_ne_plus (h c (by simp))),
        if_neg (digit_ne_minus (h c (by simp)))]
      exact numBody_digits hne h
  · constructor
    · exact List.all_eq_true.mpr fun c hc => digit_numChar (h c hc)
    · rw [List.count_eq_zero_of_not_mem]
      · omega
      · intro hdm
        exact digit_ne_dot (h '.' hdm) rfl

/-- `Number` on digits, one dot, one digit. -/
theorem jsNumber_digits_dot {ds : List Char} {d : Char} (hne : ds ≠ [])
    (h : ∀ c ∈ ds, c.isDigit = true) (hd : d.isDigit = true) :
    jsNumber (ds ++ ['.', d]) = some (mantVal ds [d]) := by
  unfold jsNumber
  rw [if_pos]
  · cases ds with
    | nil => exact absurd rfl hne
    | cons c r =>
      rw [List.cons_append]
      simp only [numSigned]
      rw [if_neg (digit_ne_plus (h c (by simp))),
        if_neg (digit_ne_minus (h c (by simp))), ← List.cons_append]
      exact numBody_digits_dot hne h hd
  · constructor
    · apply List.all_eq_true.mpr
      intro c hc
      rcases List.mem_append.mp hc with hc | hc
      · exact digit_numChar (h c hc)
      · simp only [List.mem_cons] at hc
        rcases hc with rfl | rfl | hc0
        · simp [numChar]
        · exact digit_numChar hd
        · exact absurd hc0 (by simp)
    · rw [List.count_append, List.count_eq_zero_of_not_mem
        (fun hm => digit_ne_dot (h '.' hm) rfl)]
      have hdd : ¬ ('.' = d) := fun hc => digit_ne_dot hd hc.symm
      simp [List.count_cons, hdd]

theorem replaceFirstComma_append_comma {ds : List Char} (h : ',' ∉ ds)
    (r : List Char) : replaceFirstComma (ds ++ ',' :: r) = ds ++ '.' :: r := by
  induction ds with
  | nil => simp [replaceFirstComma]
  | cons c t ih =>
    simp only [List.mem_cons, not_or] at h
    simp only [List.cons_append, replaceFirstComma, if_neg (Ne.symm h.1),
      List.append_eq]
    rw [ih h.2]

theorem parse_token_digits {ds : List Char} (hne : ds ≠ [])
    (h : ∀ c ∈ ds, c.isDigit = true) :
    parseDecimalInput (.vStr ds) = some (mantVal ds []) := by
  have hcomma : ',' ∉ ds := fun hm => digit_ne_comma (h ',' hm) rfl
  have hcond : ¬ ((',' ∈ ds) ∧ ('.' ∈ ds)) := fun hx => hcomma hx.1
  simp only [parseDecimalInput]
  rw [jsTrim_eq_self fun c hc => digit_not_ws (h c hc)]
  rw [if_neg hne]
  rw [filter_strip_eq_self fun c hc => digit_not_strip (h c hc)]
  simp only [if_neg hcond]
  rw [replaceFirstComma_of_not_mem hcomma]
  rw [if_neg hne]
  exact jsNumber_digits hne h

theorem parse_token_digits_sep {ds : List Char} {s d : Char} (hne : ds ≠ [])
    (h : ∀ c ∈ ds, c.isDigit = true) (hs : s = '.' ∨ s = ',')
    (hd : d.isDigit = true) :
    parseDecimalInput (.vStr (ds ++ [s, d])) = some (mantVal ds [d]) := by
  have hmem : ∀ c ∈ ds ++ [s, d], c.isDigit = true ∨ c = s := by
    intro c hc
    rcases List.mem_append.mp hc with hc | hc
    · exact Or.inl (h c hc)
    · simp only [List.mem_cons] at hc
      rcases hc with rfl | rfl | hc0
      · exact Or.inr rfl
      · exact Or.inl hd
      · exact absurd hc0 (by simp)
  have hnws : ∀ c ∈ ds ++ [s, d], jsWs c = false := by
    intro c hc
    rcases hmem c hc with hdig | rfl
    · exact digit_not_ws hdig
    · rcases hs with rfl | rfl <;> decide
  have hnstrip : ∀ c ∈ ds ++ [s, d], stripChar c = false := by
    intro c hc
    rcases hmem c hc with hdig | rfl
    · exact digit_not_strip hdig
    · rcases hs with rfl | rfl <;> decide
  have hne2 : ds ++ [s, d] ≠ [] := by simp
  simp only [parseDecimalInput]
  rw [jsTrim_eq_self hnws, if_neg hne2, filter_strip_eq_self hnstrip]
  rcases hs with rfl | rfl
  · have hcomma : ',' ∉ ds ++ ['.', d] := fun hm => by
      rcases hmem ',' hm with hdig | heq
      · exact digit_ne_comma hdig rfl
      · exact absurd heq (by decide)
    have hcond : ¬ ((',' ∈ ds ++ ['.', d]) ∧ ('.' ∈ ds ++ ['.', d])) :=
      fun hx => hcomma hx.1
    simp only [if_neg hcond]
    rw [replaceFirstComma_of_not_mem hcomma]
    rw [if_neg hne2]
    exact jsNumber_digits_dot hne h hd
  · have hdot : '.' ∉ ds ++ [',', d] := fun hm => by
      rcases hmem '.' hm with hdig | heq
      · exact digit_ne_dot hdig rfl
      · exact absurd heq (by decide)
    have hcond : ¬ ((',' ∈ ds ++ [',', d]) ∧ ('.' ∈ ds ++ [',', d])) :=
      fun hx => hdot hx.2
    simp only [if_neg hcond]
    have hcds : ',' ∉ ds := fun hm => digit_ne_comma (h ',' hm) rfl
    rw [show ds ++ [',', d] = ds ++ ',' :: [d] from rfl,
      replaceFirstComma_append_comma hcds]
    rw [if_neg (by simp)]
    exact jsNumber_digits_dot hne h hd

theorem mantVal_eq (ip fp : List Char) :
    mantVal ip fp = (digitsVal ip : ℚ) + (digitsVal fp : ℚ) / 10 ^ fp.length := by
  unfold mantVal
  rw [Rat.mkRat_eq_div]
  push_cast [Int.ofNat_eq_natCast]
  rw [add_div]
  congr 1
  rw [mul_div_assoc, div_self (by positivity), mul_one]

theorem mantVal_nonneg (ip fp : List Char) : 0 ≤ mantVal ip fp := by
  rw [mantVal_eq]
  positivity

theorem mantVal_lt_100 {ip fp : List Char} (h1 : digitsVal ip < 100)
    (h2 : digitsVal fp < 10 ^ fp.length) : mantVal ip fp < 100 := by
  rw [mantVal_eq]
  have ha : (digitsVal ip : ℚ) ≤ 99 := by exact_mod_cast Nat.lt_succ_iff.mp h1
  have hb : (digitsVal fp : ℚ) / 10 ^ fp.length < 1 := by
    rw [div_lt_one (by positivity)]
    exact_mod_cast h2
  linarith

/-! ## Shape of percent tokens -/

/-- What the percent pattern's capture group can look like: one or two
digits, optionally a dot or comma and one more digit. -/
def percentToken (tok : List Char) : Prop :=
  ∃ ds s d, (∀ c ∈ ds, c.isDigit = true) ∧ ds ≠ [] ∧ ds.length ≤ 2 ∧
    (tok = ds ∨ (tok = ds ++ [s, d] ∧ (s = '.' ∨ s = ',') ∧ d.isDigit = true))

theorem percentTail_shape {ds cs : List Char} {tok : List Char}
    (h : percentTail ds cs = some tok) :
    tok = ds ∨ ∃ s d, tok = ds ++ [s, d] ∧ (s = '.' ∨ s = ',') ∧ d.isDigit = true := by
  unfold percentTail at h
  rcases cs with - | ⟨s, cs2⟩
  · simp only [Option.orElse] at h
    split_ifs at h
    exact Or.inl (Option.some.inj h).symm
  · rcases cs2 with - | ⟨d, rest⟩
    · simp only [Option.orElse] at h
      split_ifs at h
      exact Or.inl (Option.some.inj h).symm
    · by_cases h1 : (s = '.' ∨ s = ',') ∧ d.isDigit
      · by_cases h2 : percentEnd rest
        · simp only [if_pos h1, if_pos h2, Option.orElse] at h
          exact Or.inr ⟨s, d, (Option.some.inj h).symm, h1.1, h1.2⟩
        · simp only [if_pos h1, if_neg h2, Option.orElse] at h
          split_ifs at h
          exact Or.inl (Option.some.inj h).symm
      · simp only [if_neg h1, Option.orElse] at h
        split_ifs at h
        exact Or.inl (Option.some.inj h).symm

theorem percentAt_shape {cs tok : List Char} (h : percentAt cs = some tok) :
    percentToken tok := by
  have one : ∀ c1 cs2, c1.isDigit = true → percentTail [c1] cs2 = some tok →
      percentToken tok := by
    intro c1 cs2 hc1 hh
    rcases percentTail_shape hh with rfl | ⟨s, d, rfl, hsd, hd⟩
    · exact ⟨[c1], '.', '0', by simpa using hc1, by simp, by simp, Or.inl rfl⟩
    · exact ⟨[c1], s, d, by simpa using hc1, by simp, by simp,
        Or.inr ⟨rfl, hsd, hd⟩⟩
  rcases cs with - | ⟨c1, cs2⟩
  · exact absurd h (by simp [percentAt])
  · rcases cs2 with - | ⟨c2, rest2⟩
    · simp only [percentAt] at h
      by_cases hc1 : c1.isDigit
      · rw [if_pos hc1] at h
        exact one c1 [] hc1 h
      · rw [if_neg hc1] at h
        exact absurd h (by simp)
    · simp only [percentAt] at h
      by_cases hc1 : c1.isDigit
      · rw [if_pos hc1] at h
        by_cases hc2 : c2.isDigit
        · rw [if_pos hc2] at h
          cases htwo : percentTail [c1, c2] rest2 with
          | some tok2 =>
            rw [htwo] at h
            simp only [Option.orElse] at h
            have heq : tok2 = tok := Option.some.inj h
            subst heq
            have hdigits : ∀ c ∈ [c1, c2], c.isDigit = true := by
              intro c hc
              simp only [List.mem_cons] at hc
              rcases hc with rfl | rfl | hc0
              · exact hc1
              · exact hc2
              · exact absurd hc0 (by simp)
            rcases percentTail_shape htwo with rfl | ⟨s, d, rfl, hsd, hd⟩
            · exact ⟨[c1, c2], '.', '0', hdigits, by simp, by simp, Or.inl rfl⟩
            · exact ⟨[c1, c2], s, d, hdigits, by simp, by simp,
                Or.inr ⟨rfl, hsd, hd⟩⟩
          | none =>
            rw [htwo] at h
            simp only [Option.orElse] at h
            exact one c1 (c2 :: rest2) hc1 h
        · rw [if_neg hc2] at h
          exact one c1 (c2 :: rest2) hc1 h
      · rw [if_neg hc1] at h
        exact absurd h (by simp)

theorem firstPercent_shape {cs tok : List Char} (h : firstPercent cs = some tok) :
    percentToken tok := by
  induction cs with
  | nil => exact absurd h (by simp [firstPercent])
  | cons c rest ih =>
    unfold firstPercent at h
    cases hp : percentAt (c :: rest) with
    | some t =>
      rw [hp] at h
      simp only [Option.orElse] at h
      exact (Option.some.inj h) ▸ percentAt_shape hp
    | none =>
      rw [hp] at h
      simp only [Option.orElse] at h
      exact ih h

/-- Any value the percent pattern hands to the parser lies in `[0, 100)`. -/
theorem parse_percent_bounds {tok : List Char} {v : ℚ}
    (hshape : percentToken tok)
    (h : parseDecimalInput (.vStr tok) = some v) : 0 ≤ v ∧ v < 100 := by
  obtain ⟨ds, s, d, hds, hne, hlen, hcase⟩ := hshape
  have hdsv : digitsVal ds < 100 := by
    have h1 := digitsVal_lt hds
    have h2 : (10 : Nat) ^ ds.length ≤ 10 ^ 2 :=
      Nat.pow_le_pow_right (by norm_num) hlen
    omega
  rcases hcase with heq | ⟨htok, hs, hd⟩
  · rw [heq] at h
    rw [parse_token_digits hne hds] at h
    have hv : v = mantVal ds [] := (Option.some.inj h).symm
    subst hv
    exact ⟨mantVal_nonneg ds [], mantVal_lt_100 hdsv (by simp [digitsVal])⟩
  · rw [htok] at h
    rw [parse_token_digits_sep hne hds hs hd] at h
    have hv : v = mantVal ds [d] := (Option.some.inj h).symm
    subst hv
    refine ⟨mantVal_nonneg ds [d], mantVal_lt_100 hdsv ?_⟩
    have hdl := @digitsVal_lt [d] (by simpa using hd)
    simpa using hdl

/-- The extracted tax rate always lies in `[0, 100)`. -/
theorem findMwstRate_bounds {lines : List (List Char)} {r : ℚ}
    (h : findMwstRate lines = some r) : 0 ≤ r ∧ r < 100 := by
  rw [findMwstRate_eq_findSome] at h
  induction lines with
  | nil => exact absurd h (by simp)
  | cons l rest ih =>
    rw [List.findSome?_cons] at h
    cases hml : mwstLine l with
    | none =>
      rw [hml] at h
      exact ih h
    | some v =>
      rw [hml] at h
      have hvr : v = r := Option.some.inj h
      subst hvr
      unfold mwstLine at hml
      split_ifs at hml
      cases hp : firstPercent l with
      | none => rw [hp] at hml; exact absurd hml (by simp)
      | some tok =>
        rw [hp] at hml
        simp only [Option.some_bind] at hml
        exact parse_percent_bounds (firstPercent_shape hp) hml

/-! ## Positivity of extracted amounts -/

theorem mem_insertCand {x c : ℚ × ℚ} {l : List (ℚ × ℚ)}
    (h : x ∈ insertCand c l) : x = c ∨ x ∈ l := by
  induction l with
  | nil => simpa [insertCand] using h
  | cons d ds ih =>
    unfold insertCand at h
    split_ifs at h
    · simpa using h
    · rcases List.mem_cons.mp h with rfl | h2
      · exact Or.inr (by simp)
      · rcases ih h2 with h3 | h3
        · exact Or.inl h3
        · exact Or.inr (by simp [h3])

theorem mem_sortCands {x : ℚ × ℚ} {l : List (ℚ × ℚ)}
    (h : x ∈ sortCands l) : x ∈ l := by
  induction l with
  | nil => simpa [sortCands] using h
  | cons c cs ih =>
    unfold sortCands at h
    rcases mem_insertCand h with rfl | h2
    · simp
    · simp [ih h2]

theorem lineCands_pos {line : List Char} {x : ℚ × ℚ}
    (h : x ∈ lineCands line) : 0 < x.1 := by
  rw [lineCands_eq] at h
  rcases List.mem_map.mp h with ⟨v, hv, rfl⟩
  unfold linePositiveAmounts at hv
  rcases List.mem_filterMap.mp hv with ⟨raw, -, hraw⟩
  rcases Option.bind_eq_some.mp hraw with ⟨w, -, hif⟩
  split_ifs at hif with hle
  have hvw : w = v := Option.some.inj hif
  subst hvw
  simpa using lt_of_not_le hle

theorem findAmount_pos {lines : List (List Char)} {a : ℚ}
    (h : findAmount lines = some a) : 0 < a := by
  simp only [findAmount] at h
  split_ifs at h
  cases hs : sortCands (collectCands lines) with
  | nil => simp [hs] at h
  | cons c rest =>
    simp only [hs] at h
    have hca : c.1 = a := by simpa using h
    have hmem : c ∈ sortCands (collectCands lines) := by rw [hs]; simp
    have hmem2 := mem_sortCands hmem
    unfold collectCands at hmem2
    rcases List.mem_flatMap.mp hmem2 with ⟨l, -, hl⟩
    exact hca ▸ lineCands_pos hl

/-- C7: in every suggestion produced by `parseReceiptText`, a present
amount is strictly positive and a present tax rate lies in `[0, 100)`
(the amount collector drops non-positive parses; the percent pattern can
only capture one or two integer digits and one optional decimal digit). -/
theorem c7_suggestion_invariants (text : List Char) :
    (∀ a : ℚ, (parseReceiptText text).amount = some a → 0 < a) ∧
    (∀ r : ℚ, (parseReceiptText text).mwstRate = some r → 0 ≤ r ∧ r < 100) := by
  constructor
  · intro a ha
    exact findAmount_pos (by simpa [parseReceiptText] using ha)
  · intro r hr
    exact findMwstRate_bounds (by simpa [parseReceiptText] using hr)

/-- Witness for C7: on a concrete receipt the extracted amount 5 is
positive and the extracted rate 2.6 lies in `[0, 100)`. -/
theorem c7_suggestion_invariants_witness :
    (0 : ℚ) < 5 ∧ ((0 : ℚ) ≤ 13 / 5 ∧ (13 / 5 : ℚ) < 100) := by
  have h := c7_suggestion_invariants (( "TOTAL CHF 5.00\nMWST 2.6%").toList)
  constructor
  · apply h.1
    rw [show (5 : ℚ) = mkRat 5 1 by rw [Rat.mkRat_eq_div]; norm_num]
    decide
  · apply h.2
    rw [show (13 / 5 : ℚ) = mkRat 13 5 by rw [Rat.mkRat_eq_div]; norm_num]
    decide

/-! ## Theorems about the description field (claim C8) -/

/-- C8 counterexample: on the receipt "Tel 044 123 45 67" / "Pizza
Quattro 12.50" the description is the contact line — which is not an
item-candidate (digit-dominated contact line) — even though the
item-candidate pizza line is available. -/
theorem c8_counterexample :
    prepLines (( "Tel 044 123 45 67\nPizza Quattro 12.50").toList) =
      [( "Tel 044 123 45 67").toList, ( "Pizza Quattro 12.50").toList] ∧
    (parseReceiptText (( "Tel 044 123 45 67\nPizza Quattro 12.50").toList)).description =
      some (( "Tel 044 123 45 67").toList) ∧
    looksLikeItemLine (( "Tel 044 123 45 67").toList) = false ∧
    looksLikeItemLine (( "Pizza Quattro 12.50").toList) = true ∧
    isNoiseLine (( "Pizza Quattro 12.50").toList) = false := by
  refine ⟨by decide, by decide, by decide, by decide, by decide⟩

/-- C8 amended: the description is the first line with at least one letter
and length above three that is not noise (price-only, digit-dominated and
contact lines are not excluded); it falls back to the first extracted item,
and is absent exactly when no such line exists and no item was
extracted. -/
theorem c8_description_first_text_line (text : List Char) :
    (parseReceiptText text).description =
      (((prepLines text).find? fun l => isTextLine l && ! isNoiseLine l).orElse
        fun _ => (extractItems (prepLines text)).head?) ∧
    ((parseReceiptText text).description = none ↔
      ((prepLines text).find? (fun l => isTextLine l && ! isNoiseLine l) = none ∧
        extractItems (prepLines text) = [])) := by
  constructor
  · simp [parseReceiptText]
  · simp only [parseReceiptText]
    cases hf : (prepLines text).find? fun l => isTextLine l && ! isNoiseLine l with
    | some d => simp [Option.orElse, hf]
    | none =>
      cases hi : extractItems (prepLines text) with
      | nil => simp [Option.orElse, hf, hi]
      | cons i rest => simp [Option.orElse, hf, hi]

/-! ## Theorems about `extractItems` and the note field (claim C9) -/

theorem extractPrimaryGo_cons_cons (f : Nat) (l n : List Char)
    (rest2 : List (List Char)) (acc : List (List Char)) :
    extractPrimaryGo (f + 1) (l :: n :: rest2) acc =
      (let line := normalizeOcrLine l
       if isNoiseLine line ∨ isPriceOnlyLine line then
         extractPrimaryGo f (n :: rest2) acc
       else if hasAmountPattern line then
         let cleaned := stripTrailingPrice line
         if 3 ≤ cleaned.length ∧ looksLikeItemLine cleaned then
           if 6 ≤ acc.length + 1 then (cleaned :: acc).reverse
           else extractPrimaryGo f (n :: rest2) (cleaned :: acc)
         else extractPrimaryGo f (n :: rest2) acc
       else if ¬ looksLikeItemLine line then extractPrimaryGo f (n :: rest2) acc
       else
         let next := if n = [] then [] else normalizeOcrLine n
         if next ≠ [] ∧ isPriceOnlyLine next then
           if 6 ≤ acc.length + 1 then (l :: acc).reverse
           else extractPrimaryGo f rest2 (l :: acc)
         else extractPrimaryGo f (n :: rest2) acc) := rfl

theorem extractPrimaryGo_cons_nil (f : Nat) (l : List Char)
    (acc : List (List Char)) :
    extractPrimaryGo (f + 1) [l] acc =
      (let line := normalizeOcrLine l
       if isNoiseLine line ∨ isPriceOnlyLine line then extractPrimaryGo f [] acc
       else if hasAmountPattern line then
         let cleaned := stripTrailingPrice line
         if 3 ≤ cleaned.length ∧ looksLikeItemLine cleaned then
           if 6 ≤ acc.length + 1 then (cleaned :: acc).reverse
           else extractPrimaryGo f [] (cleaned :: acc)
         else extractPrimaryGo f [] acc
       else if ¬ looksLikeItemLine line then extractPrimaryGo f [] acc
       else acc.reverse) := rfl

theorem extractPrimaryGo_len :
    ∀ (fuel : Nat) (ls : List (List Char)) (acc : List (List Char)),
      acc.length ≤ 5 → (extractPrimaryGo fuel ls acc).length ≤ 6 := by
  intro fuel
  induction fuel with
  | zero =>
    intro ls acc h
    cases ls <;> simp [extractPrimaryGo] <;> omega
  | succ f ih =>
    intro ls acc h
    cases ls with
    | nil => simp [extractPrimaryGo]; omega
    | cons l rest =>
      cases rest with
      | nil =>
        rw [extractPrimaryGo_cons_nil]
        simp only
        split_ifs <;>
          first
            | (simp only [List.length_reverse, List.length_cons]; omega)
            | (simp only [List.length_reverse]; omega)
            | (apply ih; simp only [List.length_cons]; omega)
            | exact ih _ _ h
      | cons n rest2 =>
        rw [extractPrimaryGo_cons_cons]
        simp only
        split_ifs <;>
          first
            | (simp only [List.length_reverse, List.length_cons]; omega)
            | (simp only [List.length_reverse]; omega)
            | (apply ih; simp only [List.length_cons]; omega)
            | exact ih _ _ h

theorem extractFallbackGo_eq :
    ∀ (ls : List (List Char)) (acc : List (List Char)), acc.length < 4 →
      extractFallbackGo ls acc = acc.reverse ++
        (ls.filter fun l => ! isPriceOnlyLine l && looksLikeItemLine l).take
          (4 - acc.length) := by
  intro ls
  induction ls with
  | nil => intro acc h; simp [extractFallbackGo]
  | cons l rest ih =>
    intro acc hacc
    simp only [extractFallbackGo]
    by_cases h1 : isPriceOnlyLine l ∨ ¬ looksLikeItemLine l
    · rw [if_pos h1, ih acc hacc]
      have hp : (! isPriceOnlyLine l && looksLikeItemLine l) = false := by
        rcases h1 with h1 | h1 <;> simp [h1] <;> simp at h1 <;> simp [h1]
      rw [List.filter_cons, hp]
      simp
    · rw [if_neg h1]
      push_neg at h1
      have hp : (! isPriceOnlyLine l && looksLikeItemLine l) = true := by
        simp only [Bool.and_eq_true, Bool.not_eq_true']
        exact ⟨by simpa using h1.1, by simpa using h1.2⟩
      rw [List.filter_cons, hp]
      by_cases h2 : 4 ≤ acc.length + 1
      · rw [if_pos h2]
        have h3 : acc.length = 3 := by omega
        simp [List.take_succ_cons, h3]
      · rw [if_neg h2, ih (l :: acc) (by simp; omega)]
        have h4 : 4 - acc.length = (4 - (acc.length + 1)) + 1 := by omega
        simp only [List.reverse_cons, List.length_cons, h4, List.take_succ_cons]
        simp

theorem extractItems_len (lines : List (List Char)) :
    (extractItems lines).length ≤ 6 := by
  unfold extractItems
  by_cases h : extractPrimaryGo lines.length lines [] = []
  · rw [if_pos h, extractFallbackGo_eq lines [] (by simp)]
    simp only [List.reverse_nil, List.nil_append]
    calc (List.take (4 - [].length) _).length ≤ 4 - List.length [] :=
          List.length_take_le _ _
      _ ≤ 6 := by simp
  · rw [if_neg h]
    exact extractPrimaryGo_len lines.length lines [] (by simp)

/-- C9 counterexample: the line "123 456 7.00" is price-bearing, not
noise, not price-only, and stripping its trailing price leaves the
seven-character remainder "123 456" — by the claim's primary rule it
should become an item and populate the note — yet the extractor returns no
items and the note is absent, because the remainder is not item-like (it
has no letters). -/
theorem c9_counterexample :
    isNoiseLine (( "123 456 7.00").toList) = false ∧
    isPriceOnlyLine (( "123 456 7.00").toList) = false ∧
    hasAmountPattern (( "123 456 7.00").toList) = true ∧
    stripTrailingPrice (( "123 456 7.00").toList) = ( "123 456").toList ∧
    3 ≤ (( "123 456").toList).length ∧
    extractItems [( "123 456 7.00").toList] = [] ∧
    (parseReceiptText (( "123 456 7.00").toList)).note = none := by
  refine ⟨by decide, by decide, by decide, by decide, by decide, by decide, by decide⟩

/-- C9 amended: the extractor yields at most six items; the primary
price-bearing rule additionally requires the price-stripped remainder to
still look like an item line (the claim omitted this condition); when the
primary rules find nothing the fallback is exactly the first four
item-candidate lines; and the note is the comma-joined items when any
exist, absent otherwise. -/
theorem c9_items_bounds_and_note (text : List Char) :
    (extractItems (prepLines text)).length ≤ 6 ∧
    (extractPrimaryGo (prepLines text).length (prepLines text) [] = [] →
      extractItems (prepLines text) =
        ((prepLines text).filter fun l =>
          ! isPriceOnlyLine l && looksLikeItemLine l).take 4) ∧
    (parseReceiptText text).note =
      (if extractItems (prepLines text) = [] then none
       else some (joinComma (extractItems (prepLines text)))) := by
  refine ⟨extractItems_len _, ?_, ?_⟩
  · intro hp
    unfold extractItems
    rw [if_pos hp, extractFallbackGo_eq _ [] (by simp)]
    simp
  · simp only [parseReceiptText]
    cases hi : extractItems (prepLines text) with
    | nil => simp [hi]
    | cons i rest => simp [hi]

/-- Witness for C9: on a two-line receipt with no prices the primary rules
find nothing and the fallback collects both item-candidate lines. -/
theorem c9_items_witness :
    extractItems (prepLines (( "MIGROS\nSchoene Sachen").toList)) =
      [( "MIGROS").toList, ( "Schoene Sachen").toList] := by
  have h := (c9_items_bounds_and_note (( "MIGROS\nSchoene Sachen").toList)).2.1
    (by decide)
  rw [h]
  decide

/-! ## The category suggester (`src/pages/ExpensePage.tsx`) -/

/-- The category entity as consumed by the suggester. -/
structure Category where
  id : Nat
  name : List Char
  description : Option (List Char)
  is_active : Bool
deriving DecidableEq

/-- `normalizeText`: lower-case and expand the regional diacritics.  The
replacement outputs contain no umlauts, so the source's sequential
`replace` chain equals this single pass. -/
def normalizeText (cs : List Char) : List Char :=
  (lowerL cs).flatMap fun c =>
    if c = 'ä' then ( "ae").toList
    else if c = 'ö' then ( "oe").toList
    else if c = 'ü' then ( "ue").toList
    else if c = 'ß' then ( "ss").toList
    else [c]

/-- The class `[a-z0-9]` the tokeniser splits on the complement of. -/
def alnumLower (c : Char) : Bool :=
  ('a' ≤ c ∧ c ≤ 'z') ∨ ('0' ≤ c ∧ c ≤ '9')

/-- Maximal `[a-z0-9]` runs (`cur` holds the current run reversed); the
split-on-separators of the source only adds empty fragments, which its
length filter drops anyway. -/
def wordsGo (cur : List Char) : List Char → List (List Char)
  | [] => if cur = [] then [] else [cur.reverse]
  | c :: r =>
    if alnumLower c then wordsGo (c :: cur) r
    else if cur = [] then wordsGo [] r
    else cur.reverse :: wordsGo [] r

/-- `tokenise`: normalised words of length above two. -/
def tokenise (cs : List Char) : List (List Char) :=
  (wordsGo [] (normalizeText cs)).filter fun w => w.length > 2

/-- The static hint table: category-name fragments paired with vendor
keywords. -/
def categoryHints : List (List (List Char) × List (List Char)) :=
  [([( "lebensmittel").toList, ( "zutaten").toList, ( "einkauf").toList,
     ( "food").toList, ( "aliment").toList],
    [( "migros").toList, ( "coop").toList, ( "lidl").toList, ( "aldi").toList,
     ( "market").toList, ( "cash").toList]),
   ([( "verpack").toList, ( "pack").toList, ( "box").toList, ( "becher").toList],
    [( "box").toList, ( "becher").toList, ( "deckel").toList, ( "folie").toList,
     ( "take").toList, ( "away").toList, ( "verpack").toList]),
   ([( "fahr").toList, ( "treib").toList, ( "tank").toList, ( "fuel").toList,
     ( "benz").toList, ( "diesel").toList],
    [( "shell").toList, ( "bp").toList, ( "avia").toList, ( "agip").toList,
     ( "eni").toList, ( "esso").toList, ( "tank").toList]),
   ([( "reinigung").toList, ( "clean").toList, ( "deterg").toList],
    [( "reinigung").toList, ( "putz").toList, ( "deterg").toList,
     ( "clean").toList, ( "soap").toList]),
   ([( "marketing").toList, ( "werbung").toList, ( "promo").toList],
    [( "werbung").toList, ( "promo").toList, ( "promotion").toList,
     ( "facebook").toList, ( "instagram").toList, ( "ads").toList,
     ( "flyer").toList]),
   ([( "standplatz").toList, ( "miete").toList, ( "gebuehr").toList,
     ( "gebuehren").toList],
    [( "miete").toList, ( "rent").toList, ( "gebuehr").toList,
     ( "stand").toList, ( "platz").toList]),
   ([( "versicherung").toList, ( "insurance").toList, ( "assicur").toList],
    [( "versicherung").toList, ( "insurance").toList, ( "assicur").toList]),
   ([( "reparatur").toList, ( "wartung").toList, ( "service").toList],
    [( "reparatur").toList, ( "wartung").toList, ( "service").toList,
     ( "officina").toList])]

/-- The running score one category accumulates: per matched name/descrip-
tion token `min(4, 1 + length/5)`, plus 3 per hint row whose match terms
overlap the normalised name and whose keywords appear in the text. -/
def scoreCategory (haystack : List Char) (c : Category) : ℚ :=
  let name := normalizeText c.name
  let description := normalizeText (c.description.getD [])
  let keywords := tokenise (name ++ ' ' :: description)
  let kwScore := keywords.foldl
    (fun s kw =>
      if containsSub kw haystack then
        qAdd s (min 4 (qAdd 1 (mkRat (Int.ofNat kw.length) 5)))
      else s) 0
  categoryHints.foldl
    (fun s hint =>
      if hint.1.any fun m => containsSub m name then
        (if hint.2.any fun k => containsSub k haystack then qAdd s 3 else s)
      else s) kwScore

/-- One step of the source's best-tracking loop. -/
def suggestStep (haystack : List Char) (best : Option (Nat × ℚ))
    (c : Category) : Option (Nat × ℚ) :=
  if ¬ c.is_active then best
  else
    let score := scoreCategory haystack c
    match best with
    | none => some (c.id, score)
    | some (bi, bs) => if score > bs then some (c.id, score) else some (bi, bs)

/-- `suggestCategoryId`: falsy text or an empty list give `null`; otherwise
the best-scoring active category wins if its score reaches the floor 2. -/
def suggestCategoryId (text : List Char) (categories : List Category) :
    Option Nat :=
  if text = [] ∨ categories = [] then none
  else
    match categories.foldl (suggestStep (normalizeText text)) none with
    | none => none
    | some (bi, bs) => if bs ≥ 2 then some bi else none

/-- First pair attaining the maximal score (later elements replace only on
strictly larger scores). -/
def firstMaxPair : List (Nat × ℚ) → Option (Nat × ℚ)
  | [] => none
  | p :: ps =>
    match firstMaxPair ps with
    | none => some p
    | some q => if q.2 > p.2 then some q else some p

/-- The scored active categories, in iteration order. -/
def scoredActive (haystack : List Char) (categories : List Category) :
    List (Nat × ℚ) :=
  (categories.filter fun c => c.is_active).map
    fun c => (c.id, scoreCategory haystack c)

/-- The claim's reference rule: score every active category, return the
strictly-highest-scoring one (first on ties) when its score is at least
2, otherwise no suggestion. -/
def specSuggestCategoryId (text : List Char) (categories : List Category) :
    Option Nat :=
  match firstMaxPair (scoredActive (normalizeText text) categories) with
  | none => none
  | some (bi, bs) => if 2 ≤ bs then some bi else none

/-! ## The fold of the suggester equals first-maximum selection -/

/-- How an initial best combines with the best of the remaining list. -/
def combineBest (b r : Option (Nat × ℚ)) : Option (Nat × ℚ) :=
  match b, r with
  | none, r => r
  | some p, none => some p
  | some p, some q => if q.2 > p.2 then some q else some p

theorem scoredActive_cons_active (hay : List Char) (c : Category)
    (cs : List Category) (hc : c.is_active = true) :
    scoredActive hay (c :: cs) =
      (c.id, scoreCategory hay c) :: scoredActive hay cs := by
  simp [scoredActive, List.filter_cons, hc]

theorem scoredActive_cons_inactive (hay : List Char) (c : Category)
    (cs : List Category) (hc : c.is_active = false) :
    scoredActive hay (c :: cs) = scoredActive hay cs := by
  simp [scoredActive, List.filter_cons, hc]

theorem suggestStep_inactive (hay : List Char) (b : Option (Nat × ℚ))
    (c : Category) (hc : c.is_active = false) : suggestStep hay b c = b := by
  simp [suggestStep, hc]

theorem suggestStep_active_none (hay : List Char) (c : Category)
    (hc : c.is_active = true) :
    suggestStep hay none c = some (c.id, scoreCategory hay c) := by
  simp [suggestStep, hc]

theorem suggestStep_active_some (hay : List Char) (c : Category)
    (bi : Nat) (bs : ℚ) (hc : c.is_active = true) :
    suggestStep hay (some (bi, bs)) c =
      if scoreCategory hay c > bs then some (c.id, scoreCategory hay c)
      else some (bi, bs) := by
  simp [suggestStep, hc]

theorem firstMaxPair_cons (p : Nat × ℚ) (ps : List (Nat × ℚ)) :
    firstMaxPair (p :: ps) =
      match firstMaxPair ps with
      | none => some p
      | some q => if q.2 > p.2 then some q else some p := rfl

theorem foldBest_eq (hay : List Char) :
    ∀ (cats : List Category) (b : Option (Nat × ℚ)),
      cats.foldl (suggestStep hay) b =
        combineBest b (firstMaxPair (scoredActive hay cats)) := by
  intro cats
  induction cats with
  | nil =>
    intro b
    cases b <;> rfl
  | cons c cs ih =>
    intro b
    rw [List.foldl_cons]
    by_cases hc : c.is_active = true
    · rw [scoredActive_cons_active hay c cs hc, firstMaxPair_cons]
      cases b with
      | none =>
        rw [suggestStep_active_none hay c hc, ih]
        cases hq : firstMaxPair (scoredActive hay cs) with
        | none => simp [combineBest]
        | some q => simp [combineBest]
      | some p =>
        rcases p with ⟨bi, bs⟩
        rw [suggestStep_active_some hay c bi bs hc]
        by_cases hgt : scoreCategory hay c > bs
        · rw [if_pos hgt, ih]
          cases hq : firstMaxPair (scoredActive hay cs) with
          | none => simp [combineBest, hgt]
          | some q =>
            by_cases hq2 : q.2 > scoreCategory hay c
            · simp [combineBest, hq2, lt_trans hgt hq2]
            · simp [combineBest, hq2, hgt]
        · rw [if_neg hgt, ih]
          cases hq : firstMaxPair (scoredActive hay cs) with
          | none => simp [combineBest, hgt]
          | some q =>
            by_cases hq2 : q.2 > scoreCategory hay c
            · simp [combineBest, hq2]
            · have hqb : ¬ (q.2 > bs) := by
                push_neg at hgt hq2 ⊢
                exact le_trans hq2 hgt
              simp [combineBest, hq2, hgt, hqb]
    · rw [suggestStep_inactive hay b c (by simpa using hc),
        ih b, scoredActive_cons_inactive hay c cs (by simpa using hc)]

theorem firstMaxPair_mem :
    ∀ {l : List (Nat × ℚ)} {q : Nat × ℚ}, firstMaxPair l = some q → q ∈ l := by
  intro l
  induction l with
  | nil =>
    intro q h
    exact absurd h (by simp [firstMaxPair])
  | cons p ps ih =>
    intro q h
    rw [firstMaxPair_cons] at h
    cases hp : firstMaxPair ps with
    | none =>
      rw [hp] at h
      have h1 : some p = some q := h
      simp [← Option.some.inj h1]
    | some r =>
      rw [hp] at h
      have h2 : (if r.2 > p.2 then some r else some p) = some q := h
      split_ifs at h2
      · have hrq : r = q := Option.some.inj h2
        exact hrq ▸ List.mem_cons_of_mem p (ih hp)
      · have hpq : p = q := Option.some.inj h2
        simp [← hpq]

theorem combineBest_none (r : Option (Nat × ℚ)) : combineBest none r = r := by
  cases r <;> rfl

theorem foldl_id_of_fix {α : Type} {f : ℚ → α → ℚ} {l : List α}
    (h : ∀ s : ℚ, ∀ x ∈ l, f s x = s) : ∀ s, l.foldl f s = s := by
  induction l with
  | nil => intro s; rfl
  | cons a t ih =>
    intro s
    rw [List.foldl_cons, h s a (by simp)]
    exact ih (fun s x hx => h s x (by simp [hx])) s

/-- With an empty haystack nothing matches, so every category scores 0. -/
theorem scoreCategory_empty (c : Category) : scoreCategory [] c = 0 := by
  simp only [scoreCategory]
  have hkw : ∀ s : ℚ, ∀ kw ∈ tokenise (normalizeText c.name ++ ' ' ::
      normalizeText (c.description.getD [])),
      (if containsSub kw [] then
        qAdd s (min 4 (qAdd 1 (mkRat (Int.ofNat kw.length) 5)))
      else s) = s := by
    intro s kw hmem
    have hlen : kw.length > 2 := by
      have := (List.mem_filter.mp hmem).2
      simpa using this
    have hcs : containsSub kw [] = false := by
      cases kw with
      | nil => simp at hlen
      | cons a b => rfl
    rw [hcs]
    simp
  have hhint : ∀ s : ℚ, ∀ hint ∈ categoryHints,
      (if hint.1.any fun m => containsSub m (normalizeText c.name) then
        (if hint.2.any fun k => containsSub k [] then qAdd s 3 else s)
      else s) = s := by
    have htable : ∀ hint ∈ categoryHints,
        (hint.2.any fun k => containsSub k []) = false := by decide
    intro s hint hmem
    rw [htable hint hmem]
    split_ifs <;> first | rfl | (exfalso; assumption)
  rw [foldl_id_of_fix hkw 0, foldl_id_of_fix hhint 0]

/-- C5: the suggester equals the reference rule — score the active
categories in order, return the first category attaining the strictly
maximal score provided it reaches the floor 2, otherwise no suggestion —
and on the example text "Migros Einkauf" with an active category named
"Lebensmittel" it suggests that category. -/
theorem c5_suggester_matches_reference :
    (∀ (text : List Char) (categories : List Category),
      suggestCategoryId text categories = specSuggestCategoryId text categories) ∧
    suggestCategoryId ( "Migros Einkauf").toList
      [⟨1, ( "Lebensmittel").toList, none, true⟩] = some 1 := by
  constructor
  · intro text cats
    by_cases hg : text = [] ∨ cats = []
    · rw [suggestCategoryId, if_pos hg]
      rcases hg with rfl | rfl
      · unfold specSuggestCategoryId
        cases hf : firstMaxPair (scoredActive (normalizeText []) cats) with
        | none => rfl
        | some q =>
          have hmem := firstMaxPair_mem hf
          unfold scoredActive at hmem
          rcases List.mem_map.mp hmem with ⟨c, -, hq⟩
          obtain ⟨a, b⟩ := q
          have hb : b = 0 := by
            have hsb : scoreCategory (normalizeText []) c = b := congrArg Prod.snd hq
            rw [← hsb]
            exact scoreCategory_empty c
          rw [hb]
          norm_num
      · rfl
    · rw [suggestCategoryId, if_neg hg,
        foldBest_eq (normalizeText text) cats none, combineBest_none]
      rfl
  · decide

/-- Witness for C5: instantiating the equivalence on the example inputs. -/
theorem c5_suggester_witness :
    suggestCategoryId ( "Migros Einkauf").toList
        [⟨1, ( "Lebensmittel").toList, none, true⟩] =
      specSuggestCategoryId ( "Migros Einkauf").toList
        [⟨1, ( "Lebensmittel").toList, none, true⟩] :=
  c5_suggester_matches_reference.1 _ _

/-- C10: the suggester returns no suggestion on empty text, an empty
category list, or an all-inactive list, and any returned id belongs to an
active listed category. -/
theorem c10_suggester_guards (text : List Char) (cats : List Category) :
    suggestCategoryId [] cats = none ∧
    suggestCategoryId text [] = none ∧
    ((∀ c ∈ cats, c.is_active = false) → suggestCategoryId text cats = none) ∧
    (∀ i, suggestCategoryId text cats = some i →
      ∃ c ∈ cats, c.is_active = true ∧ c.id = i) := by
  refine ⟨?_, ?_, ?_, ?_⟩
  · rw [suggestCategoryId, if_pos (Or.inl rfl)]
  · rw [suggestCategoryId, if_pos (Or.inr rfl)]
  · intro hall
    by_cases hg : text = [] ∨ cats = []
    · rw [suggestCategoryId, if_pos hg]
    · rw [suggestCategoryId, if_neg hg,
        foldBest_eq (normalizeText text) cats none, combineBest_none]
      have hfe : (cats.filter fun c => c.is_active) = [] := by
        rw [List.filter_eq_nil_iff]
        intro c hc
        simp [hall c hc]
      unfold scoredActive
      rw [hfe]
      rfl
  · intro i hi
    by_cases hg : text = [] ∨ cats = []
    · rw [suggestCategoryId, if_pos hg] at hi
      exact absurd hi (by simp)
    · rw [suggestCategoryId, if_neg hg,
        foldBest_eq (normalizeText text) cats none, combineBest_none] at hi
      cases hf : firstMaxPair (scoredActive (normalizeText text) cats) with
      | none =>
        rw [hf] at hi
        exact absurd hi (by simp)
      | some q =>
        rw [hf] at hi
        obtain ⟨a, b⟩ := q
        have h2 : (if b ≥ 2 then some a else none) = some i := hi
        split_ifs at h2
        have hai : a = i := Option.some.inj h2
        have hmem := firstMaxPair_mem hf
        unfold scoredActive at hmem
        rcases List.mem_map.mp hmem with ⟨c, hcf, hq⟩
        have hcmem := List.mem_filter.mp hcf
        refine ⟨c, hcmem.1, by simpa using hcmem.2, ?_⟩
        have : c.id = a := congrArg Prod.fst hq
        rw [this, hai]

/-- Witness for C10: an inactive-only list yields no suggestion, and a
returned id always comes from an active listed category. -/
theorem c10_suggester_witness :
    suggestCategoryId ( "migros einkauf").toList
      [⟨3, ( "Lebensmittel").toList, none, false⟩] = none ∧
    ∃ c ∈ [(⟨1, ( "Lebensmittel").toList, none, true⟩ : Category)],
      c.is_active = true ∧ c.id = 1 := by
  constructor
  · exact (c10_suggester_guards ( "migros einkauf").toList
      [⟨3, ( "Lebensmittel").toList, none, false⟩]).2.2.1 (by decide)
  · exact (c10_suggester_guards ( "Migros").toList
      [⟨1, ( "Lebensmittel").toList, none, true⟩]).2.2.2 1 (by decide)
